import Mathlib

/-!
Verification development for the Remi session-history unifier.

This file gives a shallow embedding, in Lean 4, of the core data model and
algorithms of the Remi repository (Rust): the cursor codec and skip predicate
of the adapter-common crate, checkpoint derivation, the ingestion
orchestrator's checkpoint update, the archive run control flow, the RRF
search fusion, the JSONL normalizers, the Claude cross-source deduplication,
the agent-kind persistence round trip, and the sqlite session upsert.

Embedding conventions:
* `chrono::DateTime<Utc>` instants form a linear order; we embed them as
  `Int`.  The external chrono RFC3339 renderer/parser pair is modelled as a
  decimal renderer/parser on `Int` (`ts_render`/`ts_parse`): an
  order-preserving injective rendering with a partial inverse, which is the
  only structure the code under study relies on.
* Rust strings are compared byte-lexicographically; for valid UTF-8 this
  agrees with lexicographic comparison of the code-point sequence, which we
  implement directly on `String.data` (`strLe`), bypassing Lean's built-in
  string order so that everything kernel-evaluates.
* `serde_json::Value` is embedded as the inductive `Json` below, with the
  typed accessors the adapters use (`get`, `as_str`, `as_array`, `as_i64`).
* The external blake3 digest is modelled as an ideal injective digest of the
  byte stream fed to the hasher (the spec treats the hash as
  collision-resistant, i.e. injective for specification purposes); we take
  the identity embedding of that stream.  What the code itself controls —
  the framing of the input parts with the 0x1f separator — is modelled
  exactly.
* `f32` scores in the retrieval engine are embedded as `ℚ`; the claims under
  study concern the shape of the score formula and the ordering of results,
  not float rounding.
-/

/-- Instants of `chrono::DateTime<Utc>`: a linearly ordered time domain,
embedded as `Int`. -/
abbrev Timestamp := Int

/-- Model of the external RFC3339 renderer (`DateTime::to_rfc3339`):
an injective, order-preserving rendering of instants. -/
def ts_render (t : Timestamp) : String := toString t

/-- Decimal digit value of a character, if any. -/
def digitVal (c : Char) : Option Nat :=
  if 48 ≤ c.toNat ∧ c.toNat ≤ 57 then some (c.toNat - 48) else none

/-- Accumulating decimal parser over characters. -/
def parseNatChars : List Char → Nat → Option Nat
  | [], acc => some acc
  | c :: cs, acc =>
    match digitVal c with
    | some d => parseNatChars cs (acc * 10 + d)
    | none => none

/-- Model of the external RFC3339 parser (`DateTime::parse_from_rfc3339`):
the partial inverse of `ts_render`, reading an optional minus sign followed
by decimal digits. -/
def ts_parse (s : String) : Option Timestamp :=
  match s.data with
  | [] => none
  | c :: cs =>
    if c = '-' then
      match cs with
      | [] => none
      | _ => (parseNatChars cs 0).map (fun n => -(n : Int))
    else (parseNatChars (c :: cs) 0).map (fun n => (n : Int))

/-- Lexicographic Boolean comparison of character lists by code point;
the embedding of Rust's `str` ordering (byte order on valid UTF-8 equals
code-point order). -/
def charLe : List Char → List Char → Bool
  | [], _ => true
  | _ :: _, [] => false
  | a :: as, b :: bs =>
    if a.toNat < b.toNat then true
    else if b.toNat < a.toNat then false
    else charLe as bs

/-- Rust `str` total order `a <= b`, embedded on `String.data`. -/
def strLe (a b : String) : Bool := charLe a.data b.data

/-- Rust `str::is_empty`, embedded on `String.data`. -/
def strIsEmpty (s : String) : Bool := s.data.isEmpty

/-- Rust `str::trim`, embedded on `String.data`: strip leading and trailing
whitespace. -/
def strTrim (s : String) : String :=
  String.mk
    (((s.data.dropWhile Char.isWhitespace).reverse.dropWhile
        Char.isWhitespace).reverse)

theorem charLe_refl : ∀ as : List Char, charLe as as = true := by
  intro as
  induction as with
  | nil => rfl
  | cons a as ih => simp [charLe, ih]

theorem charLe_total : ∀ as bs : List Char,
    charLe as bs = true ∨ charLe bs as = true := by
  intro as
  induction as with
  | nil => intro bs; exact Or.inl rfl
  | cons a as ih =>
    intro bs
    cases bs with
    | nil => exact Or.inr rfl
    | cons b bs =>
      rcases Nat.lt_trichotomy a.toNat b.toNat with h | h | h
      · left; simp [charLe, h]
      · rcases ih bs with h2 | h2
        · left; simp [charLe, h, h2]
        · right; simp [charLe, h.symm, h2]
      · right; simp [charLe, h]

theorem charLe_trans : ∀ as bs cs : List Char,
    charLe as bs = true → charLe bs cs = true → charLe as cs = true := by
  intro as
  induction as with
  | nil => intro bs cs _ _; rfl
  | cons a as ih =>
    intro bs cs hab hbc
    cases bs with
    | nil => simp [charLe] at hab
    | cons b bs =>
      cases cs with
      | nil => simp [charLe] at hbc
      | cons c cs =>
        simp only [charLe] at hab hbc ⊢
        by_cases h1 : a.toNat < b.toNat
        · by_cases h2 : b.toNat < c.toNat
          · have h3 : a.toNat < c.toNat := h1.trans h2
            simp [h3]
          · rw [if_neg h2] at hbc
            by_cases h2b : c.toNat < b.toNat
            · rw [if_pos h2b] at hbc; simp at hbc
            · rw [if_neg h2b] at hbc
              have h3 : a.toNat < c.toNat := by omega
              simp [h3]
        · rw [if_neg h1] at hab
          by_cases h1b : b.toNat < a.toNat
          · rw [if_pos h1b] at hab; simp at hab
          · rw [if_neg h1b] at hab
            by_cases h2 : b.toNat < c.toNat
            · have h3 : a.toNat < c.toNat := by omega
              simp [h3]
            · rw [if_neg h2] at hbc
              by_cases h2b : c.toNat < b.toNat
              · rw [if_pos h2b] at hbc; simp at hbc
              · rw [if_neg h2b] at hbc
                have hac : ¬ a.toNat < c.toNat := by omega
                have hca : ¬ c.toNat < a.toNat := by omega
                rw [if_neg hac, if_neg hca]
                exact ih bs cs hab hbc

/-- The unit separator U+001F used both by the cursor codec and by
`deterministic_id` framing. -/
def unitSep : Char := Char.ofNat 0x1f

/-- Stream of characters fed to the blake3 hasher by
`core_model::deterministic_id`: each part followed by one 0x1f separator
(`hasher.update(part.as_bytes()); hasher.update(&[0x1f])`). -/
def idStream (parts : List String) : List Char :=
  parts.foldl (fun acc p => acc ++ p.data ++ [unitSep]) []

/-- Model of the external blake3 hex digest: an ideal collision-resistant
digest is injective on its input stream, so we model it by the identity
embedding of the stream. -/
def blake3_hex (stream : List Char) : List Char := stream

/-- `core_model::deterministic_id`: hash of the parts, each followed by a
0x1f separator, rendered as a string. -/
def deterministic_id (parts : List String) : String :=
  String.mk (blake3_hex (idStream parts))

/-- Embedding of `serde_json::Value`: the dynamic JSON tree the adapters
consume. -/
inductive Json where
  | null : Json
  | bool (b : Bool) : Json
  | num (n : Int) : Json
  | str (s : String) : Json
  | arr (items : List Json) : Json
  | obj (fields : List (String × Json)) : Json

/-- Field lookup, `Value::get(key)`: first matching key of an object,
`None` on non-objects. -/
def Json.get : Json → String → Option Json
  | .obj fields, key =>
    match fields.find? (fun f => f.1 = key) with
    | some f => some f.2
    | none => none
  | _, _ => none

/-- Typed accessor `Value::as_str`. -/
def Json.asStr : Json → Option String
  | .str s => some s
  | _ => none

/-- Typed accessor `Value::as_i64`. -/
def Json.asInt : Json → Option Int
  | .num n => some n
  | _ => none

/-- Typed accessor `Value::as_array`. -/
def Json.asArr : Json → Option (List Json)
  | .arr items => some items
  | _ => none

/-- Helper of `extract_content_text`: append a fragment, separated from the
accumulated text by one newline when the accumulator is non-empty. -/
def pushFragment (out s : String) : String :=
  if strIsEmpty out then s else out ++ "\n" ++ s

/-- `adapter_common::extract_content_text`: a string content is returned as
is; an array contributes, per item, its non-blank `text` then its non-blank
`thinking` field; anything else yields the empty string. -/
def extract_content_text (content : Option Json) : String :=
  match content with
  | none => ""
  | some c =>
    match c.asStr with
    | some s => s
    | none =>
      match c.asArr with
      | some items =>
        items.foldl (fun out item =>
          let out :=
            match (item.get "text").bind Json.asStr with
            | some s => if strIsEmpty (strTrim s) then out else pushFragment out s
            | none => out
          match (item.get "thinking").bind Json.asStr with
          | some s => if strIsEmpty (strTrim s) then out else pushFragment out s
          | none => out) ""
      | none => ""

/-- `adapter_common::ParsedCursor`: the decoded `(timestamp, source_id)`
pair of an incremental-sync cursor. -/
structure ParsedCursor where
  ts : Timestamp
  source_id : String
deriving DecidableEq, Repr

/-- `adapter_common::encode_cursor`: `"{rfc3339_ts}\x1f{source_id}"`. -/
def encode_cursor (ts : Timestamp) (source_id : String) : String :=
  ts_render ts ++ "\x1f" ++ source_id

/-- Helper modelling `str::split_once('\x1f')`: split at the first
occurrence of the separator. -/
def split_once_list (sep : Char) : List Char → Option (List Char × List Char)
  | [] => none
  | c :: rest =>
    if c = sep then some ([], rest)
    else
      match split_once_list sep rest with
      | some (l, r) => some (c :: l, r)
      | none => none

/-- `adapter_common::parse_cursor`: split on the first U+001F, parse the
first half as an RFC3339 timestamp. -/
def parse_cursor (cursor : String) : Option ParsedCursor :=
  match split_once_list unitSep cursor.data with
  | none => none
  | some (tsChars, idChars) =>
    match ts_parse (String.mk tsChars) with
    | none => none
    | some ts => some ⟨ts, String.mk idChars⟩

/-- `adapter_common::should_skip`:
`ts < cursor.ts || (ts == cursor.ts && source_id <= cursor.source_id)`. -/
def should_skip (ts : Timestamp) (source_id : String) (cursor : ParsedCursor) : Bool :=
  decide (ts < cursor.ts) ||
    (decide (ts = cursor.ts) && strLe source_id cursor.source_id)

/-- Scan-level view of `core_model::NativeRecord`: its cursor-relevant
fields `(source_id, updated_at)`. -/
structure ScanRecord where
  source_id : String
  updated_at : Timestamp
deriving DecidableEq, Repr

/-- The `(updated_at asc, source_id asc)` order all scans sort by
(`a.updated_at.cmp(&b.updated_at).then_with(|| a.source_id.cmp(&b.source_id))`). -/
def recLe (a b : ScanRecord) : Prop :=
  a.updated_at < b.updated_at ∨
    (a.updated_at = b.updated_at ∧ strLe a.source_id b.source_id = true)

instance : DecidableRel recLe := fun a b => by
  unfold recLe; infer_instance

instance : IsTotal ScanRecord recLe := by
  constructor
  intro a b
  rcases lt_trichotomy a.updated_at b.updated_at with h | h | h
  · exact Or.inl (Or.inl h)
  · rcases charLe_total a.source_id.data b.source_id.data with h2 | h2
    · exact Or.inl (Or.inr ⟨h, h2⟩)
    · exact Or.inr (Or.inr ⟨h.symm, h2⟩)
  · exact Or.inr (Or.inl h)

instance : IsTrans ScanRecord recLe := by
  constructor
  intro a b c hab hbc
  rcases hab with h1 | ⟨e1, s1⟩
  · rcases hbc with h2 | ⟨e2, _⟩
    · exact Or.inl (h1.trans h2)
    · exact Or.inl (e2 ▸ h1)
  · rcases hbc with h2 | ⟨e2, s2⟩
    · exact Or.inl (e1 ▸ h2)
    · exact Or.inr ⟨e1.trans e2, charLe_trans _ _ _ s1 s2⟩

/-- The per-record cursor test of `adapter_common::load_jsonl`: with a
parsed cursor present, a candidate is kept exactly when `should_skip` is
false; without a cursor everything is kept. -/
def cursor_keep (cursor : Option ParsedCursor) (r : ScanRecord) : Bool :=
  match cursor with
  | none => true
  | some cur => ! should_skip r.updated_at r.source_id cur

/-- Record-stream stage of `adapter_common::load_jsonl`: drop candidates the
cursor says to skip, then sort by `(updated_at asc, source_id asc)`. -/
def load_jsonl_scan (cursor : Option ParsedCursor) (records : List ScanRecord) :
    List ScanRecord :=
  List.insertionSort recLe (records.filter (cursor_keep cursor))

example : strLe "aaa" "mmm" = true := by decide

example : load_jsonl_scan (some ⟨0, "mmm"⟩)
    [⟨"aaa", 0⟩, ⟨"mmm", 0⟩, ⟨"zzz", 0⟩] = [⟨"zzz", 0⟩] := by decide

example : parse_cursor ("0" ++ "\x1f" ++ "mmm") = some ⟨0, "mmm"⟩ := by decide

example : parse_cursor (encode_cursor (-3) "mmm") = some ⟨-3, "mmm"⟩ := by decide

/-- Reflexivity of the scan order. -/
theorem recLe_refl (a : ScanRecord) : recLe a a :=
  Or.inr ⟨rfl, charLe_refl _⟩

/-- C1: for every parsed cursor, the record-stream stage of a scan keeps
exactly the records whose `(updated_at, source_id)` pair is strictly after
the cursor, i.e. it skips exactly those with `ts < cursor.ts` or
`ts = cursor.ts` and `source_id <= cursor.source_id`; concretely, the cursor
decoded from `"{ts}\x1fmmm"` applied to three records sharing that timestamp
with ids `aaa`, `mmm`, `zzz` yields only the `zzz` record. -/
theorem c1_cursor_skip :
    (∀ (cur : ParsedCursor) (records : List ScanRecord) (r : ScanRecord),
      r ∈ load_jsonl_scan (some cur) records ↔
        r ∈ records ∧
          ¬ (r.updated_at < cur.ts ∨
              (r.updated_at = cur.ts ∧ strLe r.source_id cur.source_id = true)))
    ∧ parse_cursor (encode_cursor 0 "mmm") = some ⟨0, "mmm"⟩
    ∧ load_jsonl_scan (some ⟨0, "mmm"⟩)
        [⟨"aaa", 0⟩, ⟨"mmm", 0⟩, ⟨"zzz", 0⟩] = [⟨"zzz", 0⟩] := by
  refine ⟨?_, by decide, by decide⟩
  intro cur records r
  rw [load_jsonl_scan, (List.perm_insertionSort recLe _).mem_iff, List.mem_filter]
  simp only [cursor_keep, should_skip, not_or]
  constructor
  · rintro ⟨hmem, hkeep⟩
    simp only [Bool.not_eq_true', Bool.or_eq_false_iff, Bool.and_eq_false_iff,
      decide_eq_false_iff_not] at hkeep
    refine ⟨hmem, hkeep.1, ?_⟩
    rintro ⟨hts, hle⟩
    rcases hkeep.2 with h | h
    · exact h hts
    · simp [hle] at h
  · rintro ⟨hmem, hlt, hrest⟩
    refine ⟨hmem, ?_⟩
    simp only [Bool.not_eq_true', Bool.or_eq_false_iff, Bool.and_eq_false_iff,
      decide_eq_false_iff_not]
    refine ⟨hlt, ?_⟩
    by_cases hts : r.updated_at = cur.ts
    · right
      cases hcmp : strLe r.source_id cur.source_id
      · rfl
      · exact absurd ⟨hts, hcmp⟩ hrest
    · exact Or.inl hts

/-- Rust `Iterator::max_by` with the `(updated_at, source_id)` comparator of
`checkpoint_cursor_from_records`: a left fold that keeps the current element
unless the incoming one compares greater-or-equal (so the last maximal
element wins, as `max_by` specifies). -/
def maxRecord (r : ScanRecord) (rs : List ScanRecord) : ScanRecord :=
  rs.foldl (fun acc x => if recLe acc x then x else acc) r

/-- `adapter_common::checkpoint_cursor_from_records`: `None` on an empty
record list, otherwise the cursor encoding the maximal record under the
`(updated_at, source_id)` order. -/
def checkpoint_cursor_from_records (records : List ScanRecord) : Option String :=
  match records with
  | [] => none
  | r :: rs =>
    some (encode_cursor (maxRecord r rs).updated_at (maxRecord r rs).source_id)

theorem maxRecord_cons (r x : ScanRecord) (rs : List ScanRecord) :
    maxRecord r (x :: rs) = maxRecord (if recLe r x then x else r) rs := rfl

theorem maxRecord_mem (r : ScanRecord) (rs : List ScanRecord) :
    maxRecord r rs ∈ r :: rs := by
  induction rs generalizing r with
  | nil => simp [maxRecord]
  | cons x rs ih =>
    rw [maxRecord_cons]
    by_cases h : recLe r x
    · rw [if_pos h]
      have h2 := ih x
      simp only [List.mem_cons] at h2 ⊢
      tauto
    · rw [if_neg h]
      have h2 := ih r
      simp only [List.mem_cons] at h2 ⊢
      tauto

theorem maxRecord_ge (r : ScanRecord) (rs : List ScanRecord) :
    ∀ y ∈ r :: rs, recLe y (maxRecord r rs) := by
  induction rs generalizing r with
  | nil => intro y hy; simp at hy; exact hy ▸ recLe_refl r
  | cons x rs ih =>
    intro y hy
    rw [maxRecord_cons]
    by_cases h : recLe r x
    · rw [if_pos h]
      rcases List.mem_cons.mp hy with h2 | h2
      · exact IsTrans.trans (r := recLe) y x _ (h2 ▸ h)
          (ih x x (List.mem_cons_self x rs))
      · exact ih x y h2
    · rw [if_neg h]
      have hxr : recLe x r := (IsTotal.total (r := recLe) r x).resolve_left h
      rcases List.mem_cons.mp hy with h2 | h2
      · exact h2 ▸ ih r r (List.mem_cons_self r rs)
      · rcases List.mem_cons.mp h2 with h3 | h3
        · exact IsTrans.trans (r := recLe) y r _ (h3 ▸ hxr)
            (ih r r (List.mem_cons_self r rs))
        · exact ih r y (List.mem_cons.mpr (Or.inr h3))

/-- A row of the `checkpoints` table
(`checkpoints(agent PRIMARY KEY, cursor, updated_at)`). -/
structure CheckpointRow where
  cursor : String
  updated_at : Timestamp
deriving DecidableEq, Repr

/-- `SqliteStore::upsert_checkpoint`: `INSERT .. ON CONFLICT(agent) DO
UPDATE`, modelled on the association list of checkpoint rows keyed by the
agent tag. -/
def upsert_checkpoint :
    List (String × CheckpointRow) → String → CheckpointRow →
      List (String × CheckpointRow)
  | [], agent, row => [(agent, row)]
  | (k, v) :: rest, agent, row =>
    if k = agent then (k, row) :: rest
    else (k, v) :: upsert_checkpoint rest agent row

/-- Checkpoint-advance step of `ingest::sync_adapter`: upsert the checkpoint
only when `adapter.checkpoint_cursor(&records)` returns `Some`. -/
def sync_checkpoint_step (st : List (String × CheckpointRow)) (agent : String)
    (records : List ScanRecord) (now : Timestamp) :
    List (String × CheckpointRow) :=
  match checkpoint_cursor_from_records records with
  | none => st
  | some c => upsert_checkpoint st agent ⟨c, now⟩

/-- C2: an empty scan derives no cursor and leaves the stored checkpoints
untouched; a non-empty scan derives the cursor encoding the maximal record
under the `(updated_at, source_id)` order, and the orchestrator upserts
exactly that cursor. -/
theorem c2_empty_scan_checkpoint_frame :
    (checkpoint_cursor_from_records [] = none)
    ∧ (∀ (st : List (String × CheckpointRow)) (agent : String) (now : Timestamp),
        sync_checkpoint_step st agent [] now = st)
    ∧ (∀ (st : List (String × CheckpointRow)) (agent : String) (now : Timestamp)
        (r : ScanRecord) (rs : List ScanRecord),
        maxRecord r rs ∈ r :: rs
        ∧ (∀ x ∈ r :: rs, recLe x (maxRecord r rs))
        ∧ checkpoint_cursor_from_records (r :: rs)
            = some (encode_cursor (maxRecord r rs).updated_at
                (maxRecord r rs).source_id)
        ∧ sync_checkpoint_step st agent (r :: rs) now
            = upsert_checkpoint st agent
                ⟨encode_cursor (maxRecord r rs).updated_at
                  (maxRecord r rs).source_id, now⟩) := by
  refine ⟨rfl, fun st agent now => rfl, ?_⟩
  intro st agent now r rs
  exact ⟨maxRecord_mem r rs, maxRecord_ge r rs, rfl, rfl⟩

/-- One row of `archive_items` as `archive::archive_run` consumes it
(`ArchiveItem { session_id, planned_delete, .. }`). -/
structure RunItem where
  session_id : String
  planned_delete : Bool
deriving DecidableEq, Repr

/-- The store state `archive::archive_run` can affect: which session rows
exist and whether the run row is marked executed. -/
structure ArchiveStoreState where
  sessions : List String
  executed : Bool
deriving DecidableEq, Repr

/-- `SqliteStore::delete_session_cascade` at the granularity of this state:
remove the session row. -/
def delete_session_cascade (st : ArchiveStoreState) (session_id : String) :
    ArchiveStoreState :=
  { st with sessions := st.sessions.filter (fun s => s ≠ session_id) }

/-- Checksum of the serialized bundle bytes
(`blake3::hash(&payload).to_hex()`): the external digest modelled as an
ideal injective digest (the identity on the byte list). -/
def bundle_checksum (payload : List Nat) : List Nat := payload

/-- `archive::archive_run` control flow over this state.  `payload` is the
serialized bundle written to disk, `reread` what reading the bundle back
returns (file I/O is external, so the read-back bytes are an input of the
model).  Returns the state after the call and the `Ok` message or the
`Err`. -/
def archive_run (st : ArchiveStoreState) (run_id : String) (items : List RunItem)
    (execute delete_source : Bool) (payload reread : List Nat) :
    ArchiveStoreState × Except String String :=
  if !execute then
    (st, .ok ("dry-run: would archive " ++ toString items.length ++
      " sessions for run " ++ run_id))
  else
    let checksum := bundle_checksum payload
    let verify := bundle_checksum reread
    if verify ≠ checksum then
      (st, .error "archive verification failed; refusing deletion")
    else
      let st1 :=
        if delete_source then
          items.foldl (fun acc item =>
            if item.planned_delete then delete_session_cascade acc item.session_id
            else acc) st
        else st
      ({ st1 with executed := true }, .ok ("executed: archived run " ++ run_id))

/-- C3: when the checksum recomputed from the re-read bundle differs from
the one computed before writing, `archive_run` with `execute` set returns
the verification error and the store state is exactly the input state: no
`delete_session_cascade` has run and the run's executed flag is untouched. -/
theorem c3_archive_verification_aborts (st : ArchiveStoreState) (run_id : String)
    (items : List RunItem) (delete_source : Bool) (payload reread : List Nat)
    (hne : bundle_checksum reread ≠ bundle_checksum payload) :
    archive_run st run_id items true delete_source payload reread
      = (st, .error "archive verification failed; refusing deletion") := by
  simp only [archive_run, Bool.not_true, Bool.false_eq_true, if_false]
  rw [if_pos hne]

/-- Witness for C3 at a concrete store, item list and byte mismatch. -/
theorem c3_archive_verification_aborts_witness :
    bundle_checksum [1] ≠ bundle_checksum [0]
    ∧ archive_run ⟨["s1"], false⟩ "r" [⟨"s1", true⟩] true true [0] [1]
        = (⟨["s1"], false⟩, .error "archive verification failed; refusing deletion") :=
  ⟨by decide, c3_archive_verification_aborts ⟨["s1"], false⟩ "r" [⟨"s1", true⟩]
    true [0] [1] (by decide)⟩

/-- `core_model::AgentKind` exactly as declared in the source: five
variants (the enum has no Codex variant). -/
inductive AgentKind where
  | pi
  | droid
  | opencode
  | claude
  | amp
deriving DecidableEq, Repr

/-- `AgentKind::as_str`: the canonical short tag. -/
def AgentKind.tag : AgentKind → String
  | .pi => "pi"
  | .droid => "droid"
  | .opencode => "opencode"
  | .claude => "claude"
  | .amp => "amp"

/-- `store_sqlite::parse_agent`: decode the stored agent tag, with every
unmatched tag — including `"amp"`, which the match omits — falling back to
`AgentKind::OpenCode`. -/
def parse_agent (s : String) : AgentKind :=
  if s = "pi" then .pi
  else if s = "droid" then .droid
  else if s = "opencode" then .opencode
  else if s = "claude" then .claude
  else .opencode

/-- Column values of one `sessions` row. -/
structure SessionRow where
  agent : String
  source_ref : String
  title : String
  created_at : Timestamp
  updated_at : Timestamp
deriving DecidableEq, Repr

/-- `core_model::Session` as `save_batch` consumes it. -/
structure Session where
  id : String
  agent : AgentKind
  source_ref : String
  title : String
  created_at : Timestamp
  updated_at : Timestamp
deriving DecidableEq, Repr

/-- The `sessions` upsert of `SqliteStore::save_batch`: `INSERT .. ON
CONFLICT(id) DO UPDATE SET agent, source_ref, title, updated_at` — the
conflict branch does not assign `created_at`. -/
def upsert_session : List (String × SessionRow) → Session → List (String × SessionRow)
  | [], s =>
    [(s.id, ⟨s.agent.tag, s.source_ref, s.title, s.created_at, s.updated_at⟩)]
  | (k, v) :: rest, s =>
    if k = s.id then
      (k, ⟨s.agent.tag, s.source_ref, s.title, v.created_at, s.updated_at⟩) :: rest
    else (k, v) :: upsert_session rest s

/-- The session loop of `SqliteStore::save_batch`: one upsert per session of
the batch, in batch order. -/
def save_batch_sessions (tbl : List (String × SessionRow)) (sessions : List Session) :
    List (String × SessionRow) :=
  sessions.foldl upsert_session tbl

/-- Point lookup in the `sessions` table (`SELECT .. WHERE id = ?1`). -/
def table_get : List (String × SessionRow) → String → Option SessionRow
  | [], _ => none
  | (k, v) :: rest, id => if k = id then some v else table_get rest id

/-- `SqliteStore::get_session` reduced to the agent column: decode the
stored tag with `parse_agent`. -/
def get_session_agent (tbl : List (String × SessionRow)) (id : String) :
    Option AgentKind :=
  (table_get tbl id).map (fun row => parse_agent row.agent)

/-- C9 (code bug): the agent kind does not round-trip through persistence
for `amp` — a session saved with agent `amp` is stored under the tag
`"amp"`, yet `parse_agent` decodes `"amp"` to `OpenCode`, so `get_session`
returns the wrong agent kind.  (The enum also has no Codex variant at all,
although the spec's closed set and the codex adapter both require one.) -/
theorem c9_agent_roundtrip_bug :
    AgentKind.tag .amp = "amp"
    ∧ parse_agent "amp" = .opencode
    ∧ get_session_agent
        (save_batch_sessions [] [⟨"s1", .amp, "ref", "title", 0, 0⟩]) "s1"
        = some .opencode
    ∧ parse_agent (AgentKind.tag .amp) ≠ .amp := by
  refine ⟨rfl, by decide, by decide, by decide⟩

theorem table_get_upsert_existing : ∀ (tbl : List (String × SessionRow))
    (s : Session) (row : SessionRow), table_get tbl s.id = some row →
    table_get (upsert_session tbl s) s.id
      = some ⟨s.agent.tag, s.source_ref, s.title, row.created_at, s.updated_at⟩ := by
  intro tbl s
  induction tbl with
  | nil => intro row h; simp [table_get] at h
  | cons e rest ih =>
    intro row h
    obtain ⟨k, v⟩ := e
    by_cases hk : k = s.id
    · rw [table_get, if_pos hk, Option.some.injEq] at h
      rw [upsert_session, if_pos hk, table_get, if_pos hk, h]
    · rw [table_get, if_neg hk] at h
      rw [upsert_session, if_neg hk, table_get, if_neg hk]
      exact ih row h

theorem table_get_upsert_other : ∀ (tbl : List (String × SessionRow))
    (s : Session) (sid : String), sid ≠ s.id →
    table_get (upsert_session tbl s) sid = table_get tbl sid := by
  intro tbl s
  induction tbl with
  | nil =>
    intro sid hid
    simp only [upsert_session, table_get]
    rw [if_neg (fun h => hid h.symm)]
  | cons e rest ih =>
    intro sid hid
    obtain ⟨k, v⟩ := e
    by_cases hk : k = s.id
    · subst hk
      simp only [upsert_session, if_pos rfl, table_get]
      rw [if_neg (fun h => hid h.symm), if_neg (fun h => hid h.symm)]
    · simp only [upsert_session, if_neg hk, table_get]
      by_cases h2 : k = sid
      · rw [if_pos h2, if_pos h2]
      · rw [if_neg h2, if_neg h2]
        exact ih sid hid

/-- C10: a `save_batch` upsert never moves a stored session's `created_at`.
The conflict branch rewrites agent, source_ref, title and updated_at from
the incoming session and keeps the stored `created_at`; consequently, a
whole batch leaves the `created_at` of every pre-existing session id
unchanged. -/
theorem c10_save_batch_preserves_created_at :
    (∀ (tbl : List (String × SessionRow)) (s : Session) (row : SessionRow),
        table_get tbl s.id = some row →
        table_get (upsert_session tbl s) s.id
          = some ⟨s.agent.tag, s.source_ref, s.title, row.created_at, s.updated_at⟩)
    ∧ (∀ (sessions : List Session) (tbl : List (String × SessionRow)) (sid : String)
        (row : SessionRow),
        table_get tbl sid = some row →
        ∃ row2, table_get (save_batch_sessions tbl sessions) sid = some row2
          ∧ row2.created_at = row.created_at) := by
  refine ⟨table_get_upsert_existing, ?_⟩
  intro sessions
  induction sessions with
  | nil => intro tbl sid row h; exact ⟨row, h, rfl⟩
  | cons s rest ih =>
    intro tbl sid row h
    by_cases hid : sid = s.id
    · subst hid
      have h2 := table_get_upsert_existing tbl s row h
      obtain ⟨row2, hg, hc⟩ := ih (upsert_session tbl s) s.id
        ⟨s.agent.tag, s.source_ref, s.title, row.created_at, s.updated_at⟩ h2
      exact ⟨row2, hg, hc⟩
    · have h2 : table_get (upsert_session tbl s) sid = some row := by
        rw [table_get_upsert_other tbl s sid hid]; exact h
      exact ih (upsert_session tbl s) sid row h2

theorem string_data_inj {a b : String} (h : a.data = b.data) : a = b := by
  cases a; cases b; exact congrArg String.mk h

theorem idStream_pair (a b : String) :
    idStream [a, b] = a.data ++ unitSep :: (b.data ++ [unitSep]) := by
  simp [idStream]

theorem sepFree_takeWhile (l rest : List Char) (h : unitSep ∉ l) :
    (l ++ unitSep :: rest).takeWhile (fun c => decide (c ≠ unitSep)) = l := by
  induction l with
  | nil => simp [List.takeWhile]
  | cons c cs ih =>
    have hc : c ≠ unitSep := fun e => h (e ▸ List.mem_cons_self c cs)
    have hcs : unitSep ∉ cs := fun e => h (List.mem_cons_of_mem c e)
    have hdec : decide (c ≠ unitSep) = true := by simp [hc]
    simp only [List.cons_append, List.takeWhile, hdec, List.append_eq]
    exact congrArg (c :: ·) (ih hcs)

/-- C8 counterexample: with a part that itself contains the U+001F framing
separator, swapping the two parts feeds blake3 the identical byte stream,
so the two deterministic ids coincide although the part lists differ. -/
theorem c8_deterministic_id_swap_collision :
    "x\x1fx" ≠ "x"
    ∧ idStream ["x\x1fx", "x"] = idStream ["x", "x\x1fx"]
    ∧ deterministic_id ["x\x1fx", "x"] = deterministic_id ["x", "x\x1fx"] := by
  refine ⟨by decide, by decide, by decide⟩

/-- C8 amended: `deterministic_id` is deterministic; ids with the same first
part and distinct second parts always differ; and swapping two distinct
parts changes the id provided neither part contains the U+001F separator
the hasher frames parts with (a part containing U+001F can collide across
positions, see the counterexample). -/
theorem c8_deterministic_id_properties :
    (∀ a b : String, deterministic_id [a, b] = deterministic_id [a, b])
    ∧ (∀ a b c : String, b ≠ c →
        deterministic_id [a, b] ≠ deterministic_id [a, c])
    ∧ (∀ a b : String, unitSep ∉ a.data → unitSep ∉ b.data → a ≠ b →
        deterministic_id [a, b] ≠ deterministic_id [b, a]) := by
  refine ⟨fun a b => rfl, ?_, ?_⟩
  · intro a b c hbc heq
    apply hbc
    simp only [deterministic_id, blake3_hex] at heq
    have hstream : idStream [a, b] = idStream [a, c] := congrArg String.data heq
    rw [idStream_pair, idStream_pair] at hstream
    have h3 := List.append_cancel_left hstream
    have h4 : b.data ++ [unitSep] = c.data ++ [unitSep] := by
      simpa using h3
    exact string_data_inj (List.append_cancel_right h4)
  · intro a b ha hb hab heq
    apply hab
    simp only [deterministic_id, blake3_hex] at heq
    have hstream : idStream [a, b] = idStream [b, a] := congrArg String.data heq
    rw [idStream_pair, idStream_pair] at hstream
    have h1 : (a.data ++ unitSep :: (b.data ++ [unitSep])).takeWhile
        (fun c => decide (c ≠ unitSep)) = a.data := sepFree_takeWhile _ _ ha
    have h2 : (b.data ++ unitSep :: (a.data ++ [unitSep])).takeWhile
        (fun c => decide (c ≠ unitSep)) = b.data := sepFree_takeWhile _ _ hb
    have : a.data = b.data := by rw [← h1, hstream]; exact h2
    exact string_data_inj this

/-- Strict lexicographic comparison of character lists, the embedding of
Rust's `str` order `a < b`. -/
def charLt : List Char → List Char → Bool
  | [], [] => false
  | [], _ :: _ => true
  | _ :: _, [] => false
  | a :: as, b :: bs =>
    if a.toNat < b.toNat then true
    else if b.toNat < a.toNat then false
    else charLt as bs

theorem charLt_irrefl : ∀ as : List Char, charLt as as = false := by
  intro as
  induction as with
  | nil => rfl
  | cons a as ih => simp [charLt, ih]

theorem charLt_trans : ∀ as bs cs : List Char,
    charLt as bs = true → charLt bs cs = true → charLt as cs = true := by
  intro as
  induction as with
  | nil =>
    intro bs cs hab hbc
    cases bs with
    | nil => simp [charLt] at hab
    | cons b bs =>
      cases cs with
      | nil => simp [charLt] at hbc
      | cons c cs => rfl
  | cons a as ih =>
    intro bs cs hab hbc
    cases bs with
    | nil => simp [charLt] at hab
    | cons b bs =>
      cases cs with
      | nil => simp [charLt] at hbc
      | cons c cs =>
        simp only [charLt] at hab hbc ⊢
        by_cases h1 : a.toNat < b.toNat
        · by_cases h2 : b.toNat < c.toNat
          · have h3 : a.toNat < c.toNat := h1.trans h2
            simp [h3]
          · rw [if_neg h2] at hbc
            by_cases h2b : c.toNat < b.toNat
            · rw [if_pos h2b] at hbc; simp at hbc
            · rw [if_neg h2b] at hbc
              have h3 : a.toNat < c.toNat := by omega
              simp [h3]
        · rw [if_neg h1] at hab
          by_cases h1b : b.toNat < a.toNat
          · rw [if_pos h1b] at hab; simp at hab
          · rw [if_neg h1b] at hab
            by_cases h2 : b.toNat < c.toNat
            · have h3 : a.toNat < c.toNat := by omega
              simp [h3]
            · rw [if_neg h2] at hbc
              by_cases h2b : c.toNat < b.toNat
              · rw [if_pos h2b] at hbc; simp at hbc
              · rw [if_neg h2b] at hbc
                have hac : ¬ a.toNat < c.toNat := by omega
                have hca : ¬ c.toNat < a.toNat := by omega
                rw [if_neg hac, if_neg hca]
                exact ih bs cs hab hbc

/-- Rust `str::contains` with a string pattern: substring containment. -/
def containsSub (s pat : String) : Bool :=
  s.data.tails.any (fun t => pat.data.isPrefixOf t)

/-- `claude::SourceKind`: which of the three scan roots a path belongs to. -/
inductive SourceKind where
  | project
  | transcript
  | localShare
deriving DecidableEq, Repr

/-- `claude::source_kind`: classify a path by substring tests against
`.claude/projects` then `.claude/transcripts`, defaulting to the
local-share root. -/
def source_kind (path : String) : SourceKind :=
  if containsSub path ".claude/projects" then .project
  else if containsSub path ".claude/transcripts" then .transcript
  else .localShare

/-- `claude::source_priority`: `projects = 3`, `transcripts = 2`,
`local-share = 1`. -/
def source_priority : SourceKind → Int
  | .project => 3
  | .transcript => 2
  | .localShare => 1

/-- `claude::CandidateRecord`: dedupe key, source priority, richness score
and the cursor-relevant record fields. -/
structure CandidateRecord where
  dedupe_key : String
  priority : Int
  richness : Nat
  record : ScanRecord
deriving DecidableEq, Repr

/-- `claude::should_replace`: the candidate replaces the existing record
when it compares greater in the order: priority, then richness, then
updated_at, then (reversed) source_id. -/
def should_replace (existing candidate : CandidateRecord) : Bool :=
  if candidate.priority ≠ existing.priority then
    decide (existing.priority < candidate.priority)
  else if candidate.richness ≠ existing.richness then
    decide (existing.richness < candidate.richness)
  else if candidate.record.updated_at ≠ existing.record.updated_at then
    decide (existing.record.updated_at < candidate.record.updated_at)
  else charLt candidate.record.source_id.data existing.record.source_id.data

/-- The strict preference order of the Claude dedupe, spelled out: the
candidate beats the existing record if it has higher source priority, or
equal priority and higher richness, or equal both and newer updated_at, or
all equal and a lexicographically smaller source_id. -/
def candBeats (e c : CandidateRecord) : Prop :=
  e.priority < c.priority
  ∨ (e.priority = c.priority ∧
      (e.richness < c.richness
       ∨ (e.richness = c.richness ∧
          (e.record.updated_at < c.record.updated_at
           ∨ (e.record.updated_at = c.record.updated_at
              ∧ charLt c.record.source_id.data e.record.source_id.data = true)))))

theorem should_replace_iff (e c : CandidateRecord) :
    should_replace e c = true ↔ candBeats e c := by
  unfold should_replace candBeats
  by_cases h1 : c.priority = e.priority
  · rw [if_neg (by simp [h1])]
    by_cases h2 : c.richness = e.richness
    · rw [if_neg (by simp [h2])]
      by_cases h3 : c.record.updated_at = e.record.updated_at
      · rw [if_neg (by simp [h3])]
        simp [h1, h2, h3, lt_irrefl]
      · rw [if_pos h3]
        simp only [decide_eq_true_eq]
        constructor
        · intro h
          exact Or.inr ⟨h1.symm, Or.inr ⟨h2.symm, Or.inl h⟩⟩
        · rintro (h | ⟨-, h | ⟨-, h | ⟨heq, -⟩⟩⟩)
          · exact absurd h (by simp [h1])
          · exact absurd h (by simp [h2])
          · exact h
          · exact absurd heq.symm h3
    · rw [if_pos h2]
      simp only [decide_eq_true_eq]
      constructor
      · intro h
        exact Or.inr ⟨h1.symm, Or.inl h⟩
      · rintro (h | ⟨-, h | ⟨heq, -⟩⟩)
        · exact absurd h (by simp [h1])
        · exact h
        · exact absurd heq.symm h2
  · rw [if_pos h1]
    simp only [decide_eq_true_eq]
    constructor
    · intro h; exact Or.inl h
    · rintro (h | ⟨heq, -⟩)
      · exact h
      · exact absurd heq.symm h1

theorem candBeats_irrefl (c : CandidateRecord) : ¬ candBeats c c := by
  rintro (h | ⟨-, h | ⟨-, h | ⟨-, h⟩⟩⟩)
  · exact lt_irrefl _ h
  · exact lt_irrefl _ h
  · exact lt_irrefl _ h
  · rw [charLt_irrefl] at h; exact Bool.false_ne_true h

theorem candBeats_trans {a b c : CandidateRecord}
    (hab : candBeats a b) (hbc : candBeats b c) : candBeats a c := by
  rcases hab with h1 | ⟨e1, hab⟩
  · rcases hbc with h2 | ⟨e2, -⟩
    · exact Or.inl (h1.trans h2)
    · exact Or.inl (e2 ▸ h1)
  · rcases hbc with h2 | ⟨e2, hbc⟩
    · exact Or.inl (e1 ▸ h2)
    · refine Or.inr ⟨e1.trans e2, ?_⟩
      rcases hab with h1 | ⟨f1, hab⟩
      · rcases hbc with h2 | ⟨f2, -⟩
        · exact Or.inl (h1.trans h2)
        · exact Or.inl (f2 ▸ h1)
      · rcases hbc with h2 | ⟨f2, hbc⟩
        · exact Or.inl (f1 ▸ h2)
        · refine Or.inr ⟨f1.trans f2, ?_⟩
          rcases hab with h1 | ⟨g1, hab⟩
          · rcases hbc with h2 | ⟨g2, -⟩
            · exact Or.inl (h1.trans h2)
            · exact Or.inl (g2 ▸ h1)
          · rcases hbc with h2 | ⟨g2, hbc⟩
            · exact Or.inl (g1 ▸ h2)
            · exact Or.inr ⟨g1.trans g2, charLt_trans _ _ _ hbc hab⟩

/-- Association-list lookup keyed by string, the model of `HashMap::get`. -/
def alist_get {β : Type} : List (String × β) → String → Option β
  | [], _ => none
  | (k, v) :: rest, key => if k = key then some v else alist_get rest key

/-- One step of the Claude dedupe loop
(`deduped.entry(key).and_modify(replace-if-better).or_insert(candidate)`). -/
def dedupe_step : List (String × CandidateRecord) → CandidateRecord →
    List (String × CandidateRecord)
  | [], c => [(c.dedupe_key, c)]
  | (k, v) :: rest, c =>
    if k = c.dedupe_key then (k, if should_replace v c then c else v) :: rest
    else (k, v) :: dedupe_step rest c

/-- The Claude cross-source dedupe of `scan_changes_since`: fold all
candidates into a map keyed by dedupe key, keeping the best per key. -/
def dedupe_candidates (cands : List CandidateRecord) :
    List (String × CandidateRecord) :=
  cands.foldl dedupe_step []

theorem alist_get_dedupe_step (m : List (String × CandidateRecord))
    (c : CandidateRecord) (k : String) :
    alist_get (dedupe_step m c) k =
      if k = c.dedupe_key then
        match alist_get m k with
        | some v => some (if should_replace v c then c else v)
        | none => some c
      else alist_get m k := by
  induction m with
  | nil =>
    by_cases hk : k = c.dedupe_key
    · subst hk
      simp [dedupe_step, alist_get]
    · simp only [dedupe_step, alist_get]
      rw [if_neg (fun h => hk h.symm), if_neg hk]
  | cons e rest ih =>
    obtain ⟨k2, v2⟩ := e
    by_cases h2 : k2 = c.dedupe_key
    · by_cases hk : k2 = k
      · have hkc : k = c.dedupe_key := hk.symm.trans h2
        simp [dedupe_step, alist_get, h2, hk, hkc]
      · have hkc : ¬ k = c.dedupe_key := fun h => hk (h2.trans h.symm)
        simp only [dedupe_step, alist_get, h2, if_pos rfl, if_neg hkc]
        rw [if_neg (fun h => hkc h.symm), if_neg (fun h => hkc h.symm)]
    · by_cases hk : k2 = k
      · have hkc : ¬ k = c.dedupe_key := fun h => h2 (hk.trans h)
        simp [dedupe_step, alist_get, h2, hk, hkc]
      · simp only [dedupe_step, alist_get, if_neg h2, if_neg hk]
        exact ih

theorem alist_get_none_iff_keys {β : Type} (m : List (String × β)) (k : String) :
    alist_get m k = none ↔ k ∉ m.map Prod.fst := by
  induction m with
  | nil => simp [alist_get]
  | cons e rest ih =>
    obtain ⟨k2, v2⟩ := e
    by_cases hk : k2 = k
    · subst hk
      simp [alist_get]
    · simp only [alist_get, if_neg hk, List.map_cons, List.mem_cons]
      rw [ih]
      constructor
      · intro h hm
        rcases hm with hm | hm
        · exact hk hm.symm
        · exact h hm
      · intro h hm
        exact h (Or.inr hm)

theorem dedupe_step_keys (m : List (String × CandidateRecord)) (c : CandidateRecord) :
    (dedupe_step m c).map Prod.fst =
      if (alist_get m c.dedupe_key).isSome then m.map Prod.fst
      else m.map Prod.fst ++ [c.dedupe_key] := by
  induction m with
  | nil => simp [dedupe_step, alist_get]
  | cons e rest ih =>
    obtain ⟨k2, v2⟩ := e
    by_cases h2 : k2 = c.dedupe_key
    · subst h2
      simp [dedupe_step, alist_get]
    · simp only [dedupe_step, if_neg h2, alist_get, List.map_cons]
      rw [ih]
      by_cases hs : (alist_get rest c.dedupe_key).isSome
      · rw [if_pos hs, if_pos hs]
      · rw [if_neg hs, if_neg hs]
        simp

theorem should_replace_eq_false (e c : CandidateRecord) (h : ¬ candBeats e c) :
    should_replace e c = false := by
  cases hsr : should_replace e c
  · rfl
  · exact absurd ((should_replace_iff e c).mp hsr) h

theorem not_candBeats_of_replace_false {e c : CandidateRecord}
    (h : should_replace e c = false) : ¬ candBeats e c := fun hb => by
  have h2 := (should_replace_iff e c).mpr hb
  rw [h] at h2
  exact Bool.false_ne_true h2

/-- Invariant of the Claude dedupe fold: the map keys are distinct, a key is
present exactly when some seen candidate carries it, and every stored value
is a seen candidate with that key that no seen candidate strictly beats. -/
def DedupeInv (m : List (String × CandidateRecord))
    (seen : List CandidateRecord) : Prop :=
  (m.map Prod.fst).Nodup
  ∧ (∀ k : String, (alist_get m k).isSome ↔ ∃ c ∈ seen, c.dedupe_key = k)
  ∧ (∀ k v, alist_get m k = some v →
      v ∈ seen ∧ v.dedupe_key = k
      ∧ ∀ c ∈ seen, c.dedupe_key = k → should_replace v c = false)

theorem dedupe_step_inv (m : List (String × CandidateRecord))
    (seen : List CandidateRecord) (c : CandidateRecord)
    (h : DedupeInv m seen) : DedupeInv (dedupe_step m c) (seen ++ [c]) := by
  obtain ⟨hnd, hiff, hmax⟩ := h
  refine ⟨?_, ?_, ?_⟩
  · rw [dedupe_step_keys]
    by_cases hs : (alist_get m c.dedupe_key).isSome
    · rw [if_pos hs]; exact hnd
    · rw [if_neg hs]
      have hnone : alist_get m c.dedupe_key = none := by
        cases hv : alist_get m c.dedupe_key
        · rfl
        · rw [hv] at hs; simp at hs
      have hnotin : c.dedupe_key ∉ m.map Prod.fst :=
        (alist_get_none_iff_keys m c.dedupe_key).mp hnone
      simp [List.nodup_append, hnd, hnotin]
  · intro k
    rw [alist_get_dedupe_step]
    by_cases hk : k = c.dedupe_key
    · rw [if_pos hk]
      constructor
      · intro _
        exact ⟨c, by simp, hk.symm⟩
      · intro _
        cases alist_get m k <;> simp
    · rw [if_neg hk, hiff k]
      constructor
      · rintro ⟨d, hd, hdk⟩
        exact ⟨d, List.mem_append_left _ hd, hdk⟩
      · rintro ⟨d, hd, hdk⟩
        rcases List.mem_append.mp hd with hd | hd
        · exact ⟨d, hd, hdk⟩
        · rw [List.mem_singleton.mp hd] at hdk
          exact absurd hdk.symm hk
  · intro k v hget
    rw [alist_get_dedupe_step] at hget
    by_cases hk : k = c.dedupe_key
    · rw [if_pos hk] at hget
      cases hold : alist_get m k with
      | none =>
        rw [hold] at hget
        have hv : v = c := by
          simpa using hget.symm
        subst hv
        refine ⟨List.mem_append_right _ (by simp), hk.symm, ?_⟩
        intro d hd hdk
        rcases List.mem_append.mp hd with hd | hd
        · exfalso
          have : (alist_get m k).isSome := (hiff k).mpr ⟨d, hd, hdk⟩
          rw [hold] at this
          simp at this
        · rw [List.mem_singleton.mp hd]
          exact should_replace_eq_false v v (candBeats_irrefl v)
      | some v0 =>
        rw [hold] at hget
        have hget2 : some (if should_replace v0 c = true then c else v0) = some v :=
          hget
        obtain ⟨hv0seen, hv0key, hv0max⟩ := hmax k v0 hold
        by_cases hrep : should_replace v0 c = true
        · rw [if_pos hrep] at hget2
          have hv : v = c := by simpa using hget2.symm
          subst hv
          refine ⟨List.mem_append_right _ (by simp), hk.symm, ?_⟩
          intro d hd hdk
          rcases List.mem_append.mp hd with hd | hd
          · apply should_replace_eq_false
            intro hbeats
            have hb1 : candBeats v0 v := (should_replace_iff v0 v).mp hrep
            have hb2 : candBeats v0 d := candBeats_trans hb1 hbeats
            exact not_candBeats_of_replace_false (hv0max d hd hdk) hb2
          · rw [List.mem_singleton.mp hd]
            exact should_replace_eq_false v v (candBeats_irrefl v)
        · rw [if_neg hrep] at hget2
          have hv : v = v0 := by simpa using hget2.symm
          subst hv
          refine ⟨List.mem_append_left _ hv0seen, hv0key, ?_⟩
          intro d hd hdk
          rcases List.mem_append.mp hd with hd | hd
          · exact hv0max d hd hdk
          · rw [List.mem_singleton.mp hd]
            cases hsr : should_replace v c
            · rfl
            · exact absurd hsr hrep
    · rw [if_neg hk] at hget
      obtain ⟨hvseen, hvkey, hvmax⟩ := hmax k v hget
      refine ⟨List.mem_append_left _ hvseen, hvkey, ?_⟩
      intro d hd hdk
      rcases List.mem_append.mp hd with hd | hd
      · exact hvmax d hd hdk
      · rw [List.mem_singleton.mp hd] at hdk
        exact absurd hdk.symm hk

theorem dedupe_fold_inv : ∀ (cands : List CandidateRecord)
    (m : List (String × CandidateRecord)) (seen : List CandidateRecord),
    DedupeInv m seen → DedupeInv (cands.foldl dedupe_step m) (seen ++ cands) := by
  intro cands
  induction cands with
  | nil => intro m seen h; simpa using h
  | cons c rest ih =>
    intro m seen h
    have h3 := ih (dedupe_step m c) (seen ++ [c]) (dedupe_step_inv m seen c h)
    simpa using h3

theorem dedupe_candidates_inv (cands : List CandidateRecord) :
    DedupeInv (dedupe_candidates cands) cands := by
  have h0 : DedupeInv [] [] := by
    refine ⟨by simp, ?_, ?_⟩
    · intro k; simp [alist_get]
    · intro k v h; simp [alist_get] at h
  have := dedupe_fold_inv cands [] [] h0
  simpa [dedupe_candidates] using this

/-- C7: `source_priority` realizes projects=3, transcripts=2, local-share=1
on the three scan roots; `should_replace` compares exactly in the order
priority, richness, updated_at, smaller source_id; and the dedupe fold keeps
exactly one candidate per dedupe key — a member of that key's group that no
candidate of the group strictly beats in this order. -/
theorem c7_claude_dedupe_priority :
    (source_priority (source_kind "/home/u/.claude/projects/a.jsonl") = 3
      ∧ source_priority (source_kind "/home/u/.claude/transcripts/a.jsonl") = 2
      ∧ source_priority (source_kind "/home/u/.local/share/claude-code/a.jsonl") = 1)
    ∧ (∀ e c : CandidateRecord, should_replace e c = true ↔ candBeats e c)
    ∧ (∀ cands : List CandidateRecord,
        ((dedupe_candidates cands).map Prod.fst).Nodup
        ∧ (∀ k : String, (alist_get (dedupe_candidates cands) k).isSome ↔
            ∃ c ∈ cands, c.dedupe_key = k)
        ∧ (∀ k v, alist_get (dedupe_candidates cands) k = some v →
            v ∈ cands ∧ v.dedupe_key = k
            ∧ ∀ c ∈ cands, c.dedupe_key = k → should_replace v c = false)) := by
  refine ⟨⟨by decide, by decide, by decide⟩, should_replace_iff, ?_⟩
  intro cands
  exact dedupe_candidates_inv cands

/-- String-field lookup on a payload: `val.get(key).and_then(Value::as_str)`. -/
def jstr (j : Json) (key : String) : Option String :=
  (j.get key).bind Json.asStr

/-- `core_model::Message` as the normalizers build it. -/
structure Message where
  id : String
  session_id : String
  role : String
  content : String
  ts : Timestamp
deriving DecidableEq, Repr

/-- `core_model::Provenance` as the normalizers build it (agent stored by
tag). -/
structure Provenance where
  id : String
  entity_type : String
  entity_id : String
  agent : String
  source_path : String
  source_id : String
deriving DecidableEq, Repr

/-- `core_model::NativeRecord`: scan output consumed by normalize. -/
structure NativeRecord where
  source_id : String
  updated_at : Timestamp
  payload : Json

/-- `core_model::NormalizedBatch` restricted to the lists the adapters
populate (events and artifacts are always left empty). -/
structure NormalizedBatch where
  sessions : List Session
  messages : List Message
  provenance : List Provenance
deriving DecidableEq, Repr

/-- Per-record body of `adapter_common::normalize_jsonl_records`: if the
record has `type == "message"`, a `message` node and non-empty extracted
content, produce the session, message and provenance entities it pushes;
skip it otherwise. -/
def norm_jsonl_one (kind : AgentKind) (rec : NativeRecord) :
    Option (Session × Message × Provenance) :=
  if jstr rec.payload "type" ≠ some "message" then none
  else
    match rec.payload.get "message" with
    | none => none
    | some message =>
      let role := (jstr message "role").getD "user"
      let content := extract_content_text (message.get "content")
      if strIsEmpty content then none
      else
        let session_seed :=
          ((jstr rec.payload "sessionId").orElse (fun _ =>
            (jstr rec.payload "session").orElse (fun _ =>
              (jstr rec.payload "__session_seed").orElse (fun _ =>
                jstr rec.payload "id")))).getD rec.source_id
        let title := (jstr rec.payload "sessionTitle").getD session_seed
        let session_id := deterministic_id [kind.tag, "session", session_seed]
        let message_id := deterministic_id [kind.tag, "message", rec.source_id]
        let now := rec.updated_at
        some (⟨session_id, kind, session_seed, title, now, now⟩,
          ⟨message_id, session_id, role, content, now⟩,
          ⟨deterministic_id ["prov", message_id], "message", message_id, kind.tag,
            (jstr rec.payload "__source_path").getD kind.tag, rec.source_id⟩)

/-- `adapter_common::normalize_jsonl_records`: push one session, message and
provenance entity per qualifying record, in record order, with no session
dedup and no session sort. -/
def normalize_jsonl_records (kind : AgentKind) : List NativeRecord → NormalizedBatch
  | [] => ⟨[], [], []⟩
  | rec :: rest =>
    let b := normalize_jsonl_records kind rest
    match norm_jsonl_one kind rec with
    | none => b
    | some (s, m, p) => ⟨s :: b.sessions, m :: b.messages, p :: b.provenance⟩

theorem norm_jsonl_one_role (kind : AgentKind) (rec : NativeRecord)
    (s : Session) (m : Message) (p : Provenance)
    (h : norm_jsonl_one kind rec = some (s, m, p)) :
    m.role = ((rec.payload.get "message").bind (fun msg => jstr msg "role")).getD
      "user" := by
  unfold norm_jsonl_one at h
  split at h
  · exact absurd h (by simp)
  · rename_i htype
    cases hmsg : rec.payload.get "message" with
    | none => rw [hmsg] at h; exact absurd h (by simp)
    | some message =>
      rw [hmsg] at h
      simp only at h
      split at h
      · exact absurd h (by simp)
      · simp only [Option.some.injEq, Prod.mk.injEq] at h
        obtain ⟨-, hm, -⟩ := h
        rw [← hm]
        simp [hmsg]

theorem normalize_jsonl_messages_from_records (kind : AgentKind) :
    ∀ (records : List NativeRecord) (m : Message),
    m ∈ (normalize_jsonl_records kind records).messages →
    ∃ rec ∈ records, ∃ s p, norm_jsonl_one kind rec = some (s, m, p) := by
  intro records
  induction records with
  | nil => intro m h; simp [normalize_jsonl_records] at h
  | cons rec rest ih =>
    intro m h
    simp only [normalize_jsonl_records] at h
    cases hone : norm_jsonl_one kind rec with
    | none =>
      rw [hone] at h
      obtain ⟨r, hr, hsp⟩ := ih m h
      exact ⟨r, List.mem_cons_of_mem rec hr, hsp⟩
    | some triple =>
      obtain ⟨s, mm, p⟩ := triple
      rw [hone] at h
      simp only [List.mem_cons] at h
      rcases h with h | h
      · exact ⟨rec, List.mem_cons_self rec rest, s, p, by rw [hone, h]⟩
      · obtain ⟨r, hr, hsp⟩ := ih m h
        exact ⟨r, List.mem_cons_of_mem rec hr, hsp⟩

/-- Concrete record whose source role lies outside
`{user, assistant, system, tool}`. -/
def bananaRecord : NativeRecord :=
  ⟨"r1", 0, Json.obj [("type", Json.str "message"),
    ("message", Json.obj [("role", Json.str "banana"),
      ("content", Json.arr [Json.obj [("text", Json.str "hi")]])])]⟩

/-- C6 counterexample: the common JSONL normalize passes an unknown source
role through unchanged — the droid adapter emits a message whose role is
`"banana"`, outside `{user, assistant, system, tool}`. -/
theorem c6_unknown_role_passthrough :
    ((normalize_jsonl_records .droid [bananaRecord]).messages.map Message.role)
        = ["banana"]
    ∧ "banana" ∉ (["user", "assistant", "system", "tool"] : List String) := by
  exact ⟨by decide, by decide⟩

/-- Join text fragments with newlines (`parts.join("\n")`). -/
def joinNewline : List String → String
  | [] => ""
  | [s] => s
  | s :: rest => s ++ "\n" ++ joinNewline rest

/-- The part collection of `pi::extract_text_only`: objects whose `type` is
`"text"` contribute their trimmed, non-blank `text` field, in order. -/
def pi_text_parts : List Json → List String
  | [] => []
  | item :: rest =>
    match item with
    | Json.obj fields =>
      let tail := pi_text_parts rest
      if jstr (Json.obj fields) "type" = some "text" then
        match jstr (Json.obj fields) "text" with
        | some text =>
          if strIsEmpty (strTrim text) then tail else strTrim text :: tail
        | none => tail
      else tail
    | _ => pi_text_parts rest

/-- `pi::extract_text_only`: only `type == "text"` parts of an array
contribute (thinking parts are excluded); anything but an array yields the
empty string. -/
def extract_text_only (content : Option Json) : String :=
  match content with
  | some (Json.arr items) => joinNewline (pi_text_parts items)
  | _ => ""

/-- Title truncation of the pi scan: at most 80 characters plus an ellipsis
(byte slicing in the source; character slicing here, identical on the ASCII
titles involved). -/
def pi_truncate_title (t : String) : String :=
  if 80 < t.data.length then String.mk (t.data.take 80) ++ "…" else t

/-- Per-file scan state of `pi::load_pi_jsonl`: session metadata carried
forward across lines. -/
structure PiState where
  session_id : String
  session_ts : Option Timestamp
  cwd : Option String
  first_user_text : Option String
  msg_index : Nat

/-- Role mapping of the pi scan: keep `user` and `assistant`, map everything
else to `user` (after `toolResult` lines were dropped). -/
def pi_map_role (role : String) : String :=
  if role = "user" ∨ role = "assistant" then role else "user"

/-- First-user-utterance capture of the pi scan. -/
def pi_update_first (st : PiState) (mapped_role content_text : String) : PiState :=
  if mapped_role = "user" ∧ st.first_user_text = none then
    { st with first_user_text := some content_text }
  else st

/-- Session-id fallback of the pi scan: the file stem when no `session` line
provided an id. -/
def pi_sid (path_stem : String) (st : PiState) : String :=
  if strIsEmpty st.session_id then path_stem else st.session_id

/-- Title selection of the pi scan: the truncated first user utterance, else
the session id. -/
def pi_title (sid : String) (st : PiState) : String :=
  match st.first_user_text with
  | some t => pi_truncate_title t
  | none => sid

/-- The payload object the pi scan emits for one message line. -/
def pi_payload (source_path : String) (st : PiState) (msg : Json)
    (mapped_role sid title : String) : Json :=
  Json.obj
    (("role", Json.str mapped_role)
      :: ("content", (msg.get "content").getD (Json.arr []))
      :: ("__thread_id", Json.str sid)
      :: ("__thread_title", Json.str title)
      :: ((match st.session_ts with
            | some ts => [("__thread_ts", Json.str (ts_render ts))]
            | none => [])
          ++ [("__source_path", Json.str source_path)]
          ++ (match st.cwd with
                | some d => [("__workspace_path", Json.str d)]
                | none => [])))

/-- The line loop of `pi::load_pi_jsonl` over one session file: `session`
lines update the carried metadata, `message` lines (except `toolResult`
roles and empty contents) emit one native record each; malformed lines
(`none`) are skipped.  `path_stem` is the file stem used as the session-id
fallback, `file_mtime` and `now` model the external clock inputs. -/
def load_pi_lines (path_stem source_path : String) (cursor : Option ParsedCursor)
    (file_mtime : Option Timestamp) (now : Timestamp) :
    PiState → List (Option Json) → List NativeRecord
  | _, [] => []
  | st, none :: rest =>
    load_pi_lines path_stem source_path cursor file_mtime now st rest
  | st, some val :: rest =>
    let line_type := (jstr val "type").getD ""
    let line_ts := (((jstr val "timestamp").bind ts_parse).orElse
      (fun _ => file_mtime)).getD now
    if line_type = "session" then
      let st2 : PiState :=
        { st with
          session_id := (jstr val "id").getD st.session_id,
          cwd := match jstr val "cwd" with
            | some d => some d
            | none => st.cwd,
          session_ts := match st.session_ts with
            | none => some line_ts
            | some t => some t }
      load_pi_lines path_stem source_path cursor file_mtime now st2 rest
    else if line_type = "message" then
      match val.get "message" with
      | none => load_pi_lines path_stem source_path cursor file_mtime now st rest
      | some msg =>
        let role := (jstr msg "role").getD "user"
        if role = "toolResult" then
          load_pi_lines path_stem source_path cursor file_mtime now st rest
        else
          let content_text := extract_text_only (msg.get "content")
          if strIsEmpty content_text then
            load_pi_lines path_stem source_path cursor file_mtime now st rest
          else
            let mapped_role := pi_map_role role
            let st2 := pi_update_first st mapped_role content_text
            let sid := pi_sid path_stem st2
            let source_id := sid ++ ":" ++ toString st2.msg_index
            let st3 : PiState := { st2 with msg_index := st2.msg_index + 1 }
            if (match cursor with
                | some cur => should_skip line_ts source_id cur
                | none => false) then
              load_pi_lines path_stem source_path cursor file_mtime now st3 rest
            else
              ⟨source_id, line_ts,
                  pi_payload source_path st3 msg mapped_role sid
                    (pi_title sid st3)⟩ ::
                load_pi_lines path_stem source_path cursor file_mtime now st3 rest
    else load_pi_lines path_stem source_path cursor file_mtime now st rest

theorem pi_map_role_mem (role : String) :
    pi_map_role role = "user" ∨ pi_map_role role = "assistant" := by
  unfold pi_map_role
  by_cases h : role = "user" ∨ role = "assistant"
  · rw [if_pos h]; exact h
  · rw [if_neg h]; exact Or.inl rfl

theorem pi_payload_role (source_path : String) (st : PiState) (msg : Json)
    (mapped_role sid title : String) :
    jstr (pi_payload source_path st msg mapped_role sid title) "role"
      = some mapped_role := by
  simp [pi_payload, jstr, Json.get, List.find?, Json.asStr]

theorem load_pi_lines_roles (path_stem source_path : String)
    (cursor : Option ParsedCursor) (file_mtime : Option Timestamp)
    (now : Timestamp) :
    ∀ (lines : List (Option Json)) (st : PiState)
      (r : NativeRecord),
      r ∈ load_pi_lines path_stem source_path cursor file_mtime now st lines →
      jstr r.payload "role" = some "user" ∨
        jstr r.payload "role" = some "assistant" := by
  intro lines
  induction lines with
  | nil => intro st r h; simp [load_pi_lines] at h
  | cons line rest ih =>
    intro st r h
    cases line with
    | none => exact ih _ r h
    | some val =>
      rw [load_pi_lines] at h
      split at h
      · exact ih _ r h
      · split at h
        · cases hget : val.get "message" with
          | none => rw [hget] at h; exact ih _ r h
          | some msg =>
            rw [hget] at h
            simp only at h
            split at h
            · exact ih _ r h
            · split at h
              · exact ih _ r h
              · split at h
                · exact ih _ r h
                · rcases List.mem_cons.mp h with h | h
                  · subst h
                    rw [pi_payload_role]
                    rcases pi_map_role_mem ((jstr msg "role").getD "user") with
                      hr | hr
                    · exact Or.inl (by rw [hr])
                    · exact Or.inr (by rw [hr])
                  · exact ih _ r h
        · exact ih _ r h

/-- C6 amended: the common JSONL normalize passes a present source role
through unchanged and defaults a missing role to `"user"` (so roles outside
`{user, assistant, system, tool}` survive, see the counterexample); the pi
scan is the stage that maps roles — every record it emits carries role
`user` or `assistant`. -/
theorem c6_role_handling :
    (∀ (kind : AgentKind) (records : List NativeRecord) (m : Message),
      m ∈ (normalize_jsonl_records kind records).messages →
      ∃ rec ∈ records,
        m.role = ((rec.payload.get "message").bind
          (fun msg => jstr msg "role")).getD "user")
    ∧ (∀ (path_stem source_path : String) (cursor : Option ParsedCursor)
        (file_mtime : Option Timestamp) (now : Timestamp)
        (lines : List (Option Json)) (st : PiState) (r : NativeRecord),
        r ∈ load_pi_lines path_stem source_path cursor file_mtime now st lines →
        jstr r.payload "role" = some "user" ∨
          jstr r.payload "role" = some "assistant") := by
  constructor
  · intro kind records m hm
    obtain ⟨rec, hrec, s, p, hone⟩ :=
      normalize_jsonl_messages_from_records kind records m hm
    exact ⟨rec, hrec, norm_jsonl_one_role kind rec s m p hone⟩
  · intro ps sp cur fm now lines st r h
    exact load_pi_lines_roles ps sp cur fm now lines st r h

/-- Per-record contribution of `amp::normalize_records` to its session map:
present when the extracted content is non-empty. -/
structure AmpContrib where
  session_id : String
  thread_id : String
  title : String
  created_at : Timestamp
  updated_at : Timestamp
deriving DecidableEq, Repr

/-- Extract the session contribution of one amp record: thread id (falling
back to the record's source id), title (falling back to the thread id),
created_at from `__thread_ts` (falling back to the record timestamp). -/
def amp_contrib (kind : AgentKind) (rec : NativeRecord) : Option AmpContrib :=
  let content := extract_content_text (rec.payload.get "content")
  if strIsEmpty content then none
  else
    let thread_id := (jstr rec.payload "__thread_id").getD rec.source_id
    let title := (jstr rec.payload "__thread_title").getD thread_id
    let created_at :=
      ((jstr rec.payload "__thread_ts").bind ts_parse).getD rec.updated_at
    some ⟨deterministic_id [kind.tag, "session", thread_id], thread_id, title,
      created_at, rec.updated_at⟩

/-- The session entry created on first contribution
(`or_insert_with(|| SessionAccum { session: Session { .. } })`). -/
def amp_init (kind : AgentKind) (c : AmpContrib) : Session :=
  ⟨c.session_id, kind, c.thread_id, c.title, c.created_at, c.updated_at⟩

/-- The per-contribution session update of `amp::normalize_records`: shrink
`created_at` to the minimum, grow `updated_at` to the maximum, and fill the
title only when the stored title is empty and the incoming one is not.  The
source performs three independent in-place field updates; they are written
here as one record update (each condition reads only fields the other
updates leave untouched). -/
def amp_widen (s : Session) (c : AmpContrib) : Session :=
  { id := s.id, agent := s.agent, source_ref := s.source_ref,
    title := if strIsEmpty s.title ∧ ¬ strIsEmpty c.title then c.title else s.title,
    created_at := if c.created_at < s.created_at then c.created_at else s.created_at,
    updated_at := if s.updated_at < c.updated_at then c.updated_at else s.updated_at }

/-- Session-map update of `amp::normalize_records` for one contribution:
widen the existing entry, or insert a fresh one (to which the widening
updates apply as no-ops). -/
def amp_upsert (kind : AgentKind) : List (String × Session) → AmpContrib →
    List (String × Session)
  | [], c => [(c.session_id, amp_widen (amp_init kind c) c)]
  | (k, s) :: rest, c =>
    if k = c.session_id then (k, amp_widen s c) :: rest
    else (k, s) :: amp_upsert kind rest c

/-- The record loop of `amp::normalize_records`: accumulate the session map
and append one message and one provenance row per contributing record. -/
def amp_normalize_go (kind : AgentKind) :
    List (String × Session) → List Message → List Provenance →
      List NativeRecord →
      List (String × Session) × List Message × List Provenance
  | sess, msgs, provs, [] => (sess, msgs, provs)
  | sess, msgs, provs, rec :: rest =>
    match amp_contrib kind rec with
    | none => amp_normalize_go kind sess msgs provs rest
    | some c =>
      let message_id := deterministic_id [kind.tag, "message", rec.source_id]
      let role := (jstr rec.payload "role").getD "user"
      let content := extract_content_text (rec.payload.get "content")
      amp_normalize_go kind (amp_upsert kind sess c)
        (msgs ++ [⟨message_id, c.session_id, role, content, rec.updated_at⟩])
        (provs ++ [⟨deterministic_id ["prov", message_id], "message", message_id,
          kind.tag, (jstr rec.payload "__source_path").getD kind.tag,
          rec.source_id⟩])
        rest

/-- The `(updated_at asc, id asc)` order the amp normalizer sorts its
deduplicated sessions by. -/
def sessLe (a b : Session) : Prop :=
  a.updated_at < b.updated_at ∨
    (a.updated_at = b.updated_at ∧ strLe a.id b.id = true)

instance : DecidableRel sessLe := fun a b => by
  unfold sessLe; infer_instance

instance : IsTotal Session sessLe := by
  constructor
  intro a b
  rcases lt_trichotomy a.updated_at b.updated_at with h | h | h
  · exact Or.inl (Or.inl h)
  · rcases charLe_total a.id.data b.id.data with h2 | h2
    · exact Or.inl (Or.inr ⟨h, h2⟩)
    · exact Or.inr (Or.inr ⟨h.symm, h2⟩)
  · exact Or.inr (Or.inl h)

instance : IsTrans Session sessLe := by
  constructor
  intro a b c hab hbc
  rcases hab with h1 | ⟨e1, s1⟩
  · rcases hbc with h2 | ⟨e2, -⟩
    · exact Or.inl (h1.trans h2)
    · exact Or.inl (e2 ▸ h1)
  · rcases hbc with h2 | ⟨e2, s2⟩
    · exact Or.inl (e1 ▸ h2)
    · exact Or.inr ⟨e1.trans e2, charLe_trans _ _ _ s1 s2⟩

/-- `amp::normalize_records`: dedupe sessions by id in a map, then emit them
sorted by `(updated_at asc, id asc)` alongside the message and provenance
lists. -/
def amp_normalize (kind : AgentKind) (records : List NativeRecord) :
    NormalizedBatch :=
  let out := amp_normalize_go kind [] [] [] records
  ⟨List.insertionSort sessLe (out.1.map Prod.snd), out.2.1, out.2.2⟩

/-- The contributions of a record list that map to one session id, in record
order. -/
def amp_group (kind : AgentKind) (records : List NativeRecord) (k : String) :
    List AmpContrib :=
  (records.filterMap (amp_contrib kind)).filter (fun c => c.session_id = k)

/-- Reference fold: the session a group of contributions produces — the
first contribution initializes the entry, every contribution (the first
included) widens it. -/
def amp_group_fold (kind : AgentKind) (first : AmpContrib)
    (rest : List AmpContrib) : Session :=
  rest.foldl amp_widen (amp_widen (amp_init kind first) first)

/-- Extend an optional session entry by a list of contributions, exactly as
the session map treats one key. -/
def amp_extend (kind : AgentKind) (start : Option Session)
    (group : List AmpContrib) : Option Session :=
  group.foldl (fun acc c =>
    match acc with
    | some s => some (amp_widen s c)
    | none => some (amp_widen (amp_init kind c) c)) start

theorem alist_get_amp_upsert (kind : AgentKind) (m : List (String × Session))
    (c : AmpContrib) (k : String) :
    alist_get (amp_upsert kind m c) k =
      if k = c.session_id then
        match alist_get m k with
        | some s => some (amp_widen s c)
        | none => some (amp_widen (amp_init kind c) c)
      else alist_get m k := by
  induction m with
  | nil =>
    by_cases hk : k = c.session_id
    · subst hk
      simp [amp_upsert, alist_get]
    · simp only [amp_upsert, alist_get]
      rw [if_neg (fun h => hk h.symm), if_neg hk]
  | cons e rest ih =>
    obtain ⟨k2, v2⟩ := e
    by_cases h2 : k2 = c.session_id
    · by_cases hk : k2 = k
      · have hkc : k = c.session_id := hk.symm.trans h2
        simp [amp_upsert, alist_get, h2, hk, hkc]
      · have hkc : ¬ k = c.session_id := fun h => hk (h2.trans h.symm)
        simp only [amp_upsert, alist_get, h2, if_pos rfl, if_neg hkc]
        rw [if_neg (fun h => hkc h.symm), if_neg (fun h => hkc h.symm)]
    · by_cases hk : k2 = k
      · have hkc : ¬ k = c.session_id := fun h => h2 (hk.trans h)
        simp [amp_upsert, alist_get, h2, hk, hkc]
      · simp only [amp_upsert, alist_get, if_neg h2, if_neg hk]
        exact ih

theorem amp_upsert_keys (kind : AgentKind) (m : List (String × Session))
    (c : AmpContrib) :
    (amp_upsert kind m c).map Prod.fst =
      if (alist_get m c.session_id).isSome then m.map Prod.fst
      else m.map Prod.fst ++ [c.session_id] := by
  induction m with
  | nil => simp [amp_upsert, alist_get]
  | cons e rest ih =>
    obtain ⟨k2, v2⟩ := e
    by_cases h2 : k2 = c.session_id
    · simp [amp_upsert, alist_get, h2]
    · simp only [amp_upsert, alist_get, if_neg h2, List.map_cons]
      rw [ih]
      by_cases hs : (alist_get rest c.session_id).isSome
      · rw [if_pos hs, if_pos hs]
      · rw [if_neg hs, if_neg hs]
        simp

theorem amp_widen_id (s : Session) (c : AmpContrib) :
    (amp_widen s c).id = s.id := rfl

theorem amp_widen_created_at (s : Session) (c : AmpContrib) :
    (amp_widen s c).created_at = min s.created_at c.created_at := by
  show (if c.created_at < s.created_at then c.created_at else s.created_at)
    = min s.created_at c.created_at
  rw [min_def]
  split_ifs with h1 h2 h2
  · exact absurd h2 (not_le.mpr h1)
  · rfl
  · rfl
  · exact absurd (le_of_not_lt h1) h2

theorem amp_widen_updated_at (s : Session) (c : AmpContrib) :
    (amp_widen s c).updated_at = max s.updated_at c.updated_at := by
  show (if s.updated_at < c.updated_at then c.updated_at else s.updated_at)
    = max s.updated_at c.updated_at
  rw [max_def]
  split_ifs with h1 h2 h2
  · rfl
  · exact absurd (le_of_lt h1) h2
  · exact le_antisymm h2 (le_of_not_lt h1)
  · rfl

theorem amp_widen_title (s : Session) (c : AmpContrib) :
    (amp_widen s c).title =
      if strIsEmpty s.title ∧ ¬ strIsEmpty c.title then c.title else s.title := rfl

theorem alist_get_of_mem {β : Type} :
    ∀ (m : List (String × β)), (m.map Prod.fst).Nodup →
    ∀ (k : String) (v : β), (k, v) ∈ m → alist_get m k = some v := by
  intro m
  induction m with
  | nil => intro _ k v hm; simp at hm
  | cons e rest ih =>
    intro hnd k v hm
    obtain ⟨k2, v2⟩ := e
    simp only [List.map_cons, List.nodup_cons] at hnd
    rcases List.mem_cons.mp hm with hm | hm
    · obtain ⟨hk, hv⟩ := Prod.mk.injEq .. ▸ hm
      simp [alist_get, hk.symm, hv]
    · have hk2 : ¬ k2 = k := by
        intro h
        subst h
        exact hnd.1 (List.mem_map.mpr ⟨(k2, v), hm, rfl⟩)
      simp only [alist_get, if_neg hk2]
      exact ih hnd.2 k v hm

/-- Invariant of the amp session map: distinct keys, and every stored
session carries its key as its id. -/
def AmpInv (m : List (String × Session)) : Prop :=
  (m.map Prod.fst).Nodup ∧ ∀ p ∈ m, (Prod.snd p).id = Prod.fst p

theorem amp_upsert_inv (kind : AgentKind) (m : List (String × Session))
    (c : AmpContrib) (h : AmpInv m) : AmpInv (amp_upsert kind m c) := by
  obtain ⟨hnd, hid⟩ := h
  constructor
  · rw [amp_upsert_keys]
    by_cases hs : (alist_get m c.session_id).isSome
    · rw [if_pos hs]; exact hnd
    · rw [if_neg hs]
      have hnone : alist_get m c.session_id = none := by
        cases hv : alist_get m c.session_id
        · rfl
        · rw [hv] at hs; simp at hs
      have hnotin : c.session_id ∉ m.map Prod.fst :=
        (alist_get_none_iff_keys m c.session_id).mp hnone
      simp [List.nodup_append, hnd, hnotin]
  · intro p hp
    induction m with
    | nil =>
      simp only [amp_upsert, List.mem_singleton] at hp
      subst hp
      simp [amp_widen_id, amp_init]
    | cons e rest ih =>
      obtain ⟨k2, v2⟩ := e
      by_cases h2 : k2 = c.session_id
      · rw [amp_upsert, if_pos h2] at hp
        rcases List.mem_cons.mp hp with hp | hp
        · subst hp
          simp only [amp_widen_id]
          exact hid (k2, v2) (List.mem_cons_self _ _)
        · exact hid p (List.mem_cons_of_mem _ hp)
      · rw [amp_upsert, if_neg h2] at hp
        rcases List.mem_cons.mp hp with hp | hp
        · subst hp
          exact hid (k2, v2) (List.mem_cons_self _ _)
        · have hnd2 : (rest.map Prod.fst).Nodup := by
            simp only [List.map_cons, List.nodup_cons] at hnd
            exact hnd.2
          exact ih hnd2 (fun q hq => hid q (List.mem_cons_of_mem _ hq)) hp

theorem amp_go_lookup (kind : AgentKind) :
    ∀ (records : List NativeRecord) (sess : List (String × Session))
      (msgs : List Message) (provs : List Provenance) (k : String),
    alist_get (amp_normalize_go kind sess msgs provs records).1 k
      = amp_extend kind (alist_get sess k) (amp_group kind records k) := by
  intro records
  induction records with
  | nil =>
    intro sess msgs provs k
    simp [amp_normalize_go, amp_group, amp_extend]
  | cons rec rest ih =>
    intro sess msgs provs k
    rw [amp_normalize_go]
    cases hc : amp_contrib kind rec with
    | none =>
      rw [ih]
      have hg : amp_group kind (rec :: rest) k = amp_group kind rest k := by
        simp [amp_group, List.filterMap_cons, hc]
      rw [hg]
    | some c =>
      simp only
      rw [ih]
      by_cases hk : c.session_id = k
      · have hg : amp_group kind (rec :: rest) k = c :: amp_group kind rest k := by
          simp [amp_group, List.filterMap_cons, hc, hk]
        rw [hg]
        rw [alist_get_amp_upsert]
        rw [if_pos hk.symm]
        cases hold : alist_get sess k with
        | none => simp [amp_extend]
        | some s => simp [amp_extend]
      · have hg : amp_group kind (rec :: rest) k = amp_group kind rest k := by
          simp [amp_group, List.filterMap_cons, hc, hk]
        rw [hg]
        rw [alist_get_amp_upsert]
        rw [if_neg (fun h => hk h.symm)]

theorem amp_go_inv (kind : AgentKind) :
    ∀ (records : List NativeRecord) (sess : List (String × Session))
      (msgs : List Message) (provs : List Provenance),
    AmpInv sess → AmpInv (amp_normalize_go kind sess msgs provs records).1 := by
  intro records
  induction records with
  | nil => intro sess msgs provs h; exact h
  | cons rec rest ih =>
    intro sess msgs provs h
    rw [amp_normalize_go]
    cases hc : amp_contrib kind rec with
    | none => exact ih sess msgs provs h
    | some c =>
      simp only
      exact ih _ _ _ (amp_upsert_inv kind sess c h)

theorem amp_extend_some (kind : AgentKind) :
    ∀ (g : List AmpContrib) (s : Session),
    amp_extend kind (some s) g = some (g.foldl amp_widen s) := by
  intro g
  induction g with
  | nil => intro s; rfl
  | cons c rest ih => intro s; exact ih (amp_widen s c)

/-- Concrete droid record contributing to session seed `s-1`. -/
def dupRecord (rid text : String) : NativeRecord :=
  ⟨rid, 0, Json.obj [("type", Json.str "message"), ("sessionId", Json.str "s-1"),
    ("message", Json.obj [("role", Json.str "user"),
      ("content", Json.arr [Json.obj [("text", Json.str text)]])])]⟩

/-- C5 counterexample: the common JSONL normalize (used by the droid
adapter) emits one session entity per record with no dedup — two records of
the same session yield two sessions with the same deterministic id. -/
theorem c5_common_normalize_duplicate_sessions :
    ((normalize_jsonl_records .droid
        [dupRecord "r1" "a", dupRecord "r2" "b"]).sessions.map Session.id)
      = [deterministic_id ["droid", "session", "s-1"],
         deterministic_id ["droid", "session", "s-1"]]
    ∧ ¬ ((normalize_jsonl_records .droid
        [dupRecord "r1" "a", dupRecord "r2" "b"]).sessions.map Session.id).Nodup := by
  exact ⟨by decide, by decide⟩

/-- C5 amended (amp adapter): `amp::normalize_records` emits at most one
session per deterministic session id; each emitted session is exactly the
fold of its group of contributions, where each contribution widens
`[created_at, updated_at]` by min/max and fills the title only if it was
empty; and the emitted list is sorted by `(updated_at asc, id asc)`. -/
theorem c5_amp_normalize_sessions (kind : AgentKind) (records : List NativeRecord) :
    (((amp_normalize kind records).sessions.map Session.id).Nodup)
    ∧ List.Sorted sessLe (amp_normalize kind records).sessions
    ∧ (∀ s ∈ (amp_normalize kind records).sessions,
        ∃ c cs, amp_group kind records s.id = c :: cs
          ∧ s = amp_group_fold kind c cs)
    ∧ (∀ (s : Session) (c : AmpContrib),
        (amp_widen s c).created_at = min s.created_at c.created_at
        ∧ (amp_widen s c).updated_at = max s.updated_at c.updated_at
        ∧ (amp_widen s c).title
            = if strIsEmpty s.title ∧ ¬ strIsEmpty c.title then c.title
              else s.title) := by
  have hinv : AmpInv (amp_normalize_go kind [] [] [] records).1 :=
    amp_go_inv kind records [] [] [] ⟨by simp, by intro p hp; simp at hp⟩
  have hsess : (amp_normalize kind records).sessions
      = List.insertionSort sessLe
          ((amp_normalize_go kind [] [] [] records).1.map Prod.snd) := rfl
  refine ⟨?_, ?_, ?_, ?_⟩
  · rw [hsess]
    have hperm := (List.perm_insertionSort sessLe
      ((amp_normalize_go kind [] [] [] records).1.map Prod.snd)).map Session.id
    rw [hperm.nodup_iff]
    rw [List.map_map]
    have hmaps : (amp_normalize_go kind [] [] [] records).1.map
        (Session.id ∘ Prod.snd) = (amp_normalize_go kind [] [] [] records).1.map
        Prod.fst := by
      apply List.map_congr_left
      intro p hp
      exact hinv.2 p hp
    rw [hmaps]
    exact hinv.1
  · rw [hsess]
    exact List.sorted_insertionSort sessLe _
  · intro s hs
    rw [hsess] at hs
    have hmem : s ∈ (amp_normalize_go kind [] [] [] records).1.map Prod.snd :=
      (List.perm_insertionSort sessLe _).mem_iff.mp hs
    obtain ⟨p, hp, hps⟩ := List.mem_map.mp hmem
    have hid : s.id = p.1 := by rw [← hps]; exact hinv.2 p hp
    have hpair : (p.1, s) ∈ (amp_normalize_go kind [] [] [] records).1 := by
      obtain ⟨k, v⟩ := p
      simp only at hps
      rw [hps] at hp
      exact hp
    have hget : alist_get (amp_normalize_go kind [] [] [] records).1 p.1 = some s :=
      alist_get_of_mem _ hinv.1 p.1 s hpair
    rw [amp_go_lookup kind records [] [] [] p.1] at hget
    have hstart : alist_get ([] : List (String × Session)) p.1 = none := rfl
    rw [hstart] at hget
    cases hgrp : amp_group kind records p.1 with
    | nil =>
      rw [hgrp] at hget
      simp [amp_extend] at hget
    | cons c cs =>
      rw [hgrp] at hget
      have hext : amp_extend kind none (c :: cs)
          = some (amp_group_fold kind c cs) := by
        show amp_extend kind (some (amp_widen (amp_init kind c) c)) cs
          = some (amp_group_fold kind c cs)
        rw [amp_extend_some]
        rfl
      rw [hext] at hget
      refine ⟨c, cs, ?_, ?_⟩
      · rw [hid, hgrp]
      · exact (Option.some.injEq .. ▸ hget).symm
  · intro s c
    exact ⟨amp_widen_created_at s c, amp_widen_updated_at s c, amp_widen_title s c⟩

/-- A candidate row of the retrieval engine (`store_sqlite::SearchRow`
restricted to the fields the fusion reads). -/
structure SearchRow where
  message_id : String
  session_id : String
  content : String
deriving DecidableEq, Repr

/-- Value stored in the fusion score map of `search::search`: the cumulative
score with the row fields carried along
(`HashMap<String, (f32, String, String, String)>`). -/
structure FusedEntry where
  score : ℚ
  session_id : String
  content : String
  message_id : String
deriving DecidableEq, Repr

/-- `search::RankedHit`. -/
structure RankedHit where
  message_id : String
  session_id : String
  content : String
  score : ℚ
deriving DecidableEq, Repr

/-- One reciprocal-rank-fusion contribution: `w / (k + rank + 1)` with
`k = 60` and 0-based `rank`. -/
def rrf_contrib (w : ℚ) (rank : Nat) : ℚ := w / (60 + rank + 1)

/-- `scores.entry(id).and_modify(|s| s += c).or_insert(fresh)`: add `c` to
the present entry's score, or append the fresh entry. -/
def fused_upsert (fresh : FusedEntry) :
    List (String × FusedEntry) → String → ℚ → List (String × FusedEntry)
  | [], k, _ => [(k, fresh)]
  | (k2, v) :: rest, k, c =>
    if k2 = k then (k2, { v with score := v.score + c }) :: rest
    else (k2, v) :: fused_upsert fresh rest k c

/-- `store.get_message(msg_id)` over the message table. -/
def find_message : List SearchRow → String → Option SearchRow
  | [], _ => none
  | row :: rest, k => if row.message_id = k then some row else find_message rest k

/-- The bm25/recency accumulation loop of `search::search`: at 0-based rank
`rank`, the row contributes `w / (60 + rank + 1)`; an absent message is
inserted with exactly that score and the row's fields. -/
def accum_rows (w : ℚ) : Nat → List SearchRow → List (String × FusedEntry) →
    List (String × FusedEntry)
  | _, [], scores => scores
  | rank, row :: rest, scores =>
    accum_rows w (rank + 1) rest
      (fused_upsert ⟨rrf_contrib w rank, row.session_id, row.content,
        row.message_id⟩ scores row.message_id (rrf_contrib w rank))

/-- The semantic accumulation loop of `search::search`: an unknown message
id is populated by fetching its row (`or_insert_with`), receiving score 0
with empty fields when the fetch fails. -/
def accum_sem (w : ℚ) (msgs : List SearchRow) :
    Nat → List String → List (String × FusedEntry) →
      List (String × FusedEntry)
  | _, [], scores => scores
  | rank, mid :: rest, scores =>
    accum_sem w msgs (rank + 1) rest
      (fused_upsert
        (match find_message msgs mid with
          | some m => ⟨rrf_contrib w rank, m.session_id, m.content, mid⟩
          | none => ⟨0, "", "", mid⟩)
        scores mid (rrf_contrib w rank))

/-- The descending-score order `search::search` sorts hits by
(`out.sort_by(|a, b| b.score.total_cmp(&a.score))`). -/
def hitGe (a b : RankedHit) : Prop := b.score ≤ a.score

instance : DecidableRel hitGe := fun a b => by
  unfold hitGe; infer_instance

instance : IsTotal RankedHit hitGe := by
  constructor
  intro a b
  rcases le_total a.score b.score with h | h
  · exact Or.inr h
  · exact Or.inl h

instance : IsTrans RankedHit hitGe := by
  constructor
  intro a b c hab hbc
  exact le_trans hbc hab

/-- The fusion stage of `search::search` (its lines 82 through 145): fold
the lexical, recency and semantic candidate lists into a cumulative score
map with weights 1, 0.3 and 0.5, keep positive entries, sort by score
descending and truncate to `limit`. -/
def search_fuse (bm25 recency : List SearchRow) (semantic : List String)
    (msgs : List SearchRow) (limit : Nat) : List RankedHit :=
  let scores1 := accum_rows 1 0 bm25 []
  let scores2 := accum_rows (3/10) 0 recency scores1
  let scores3 := accum_sem (1/2) msgs 0 semantic scores2
  let hits := ((scores3.map Prod.snd).filter
      (fun e => decide (0 < e.score))).map
    (fun e => RankedHit.mk e.message_id e.session_id e.content e.score)
  (List.insertionSort hitGe hits).take limit

/-- Rank-indexed sum of the contributions one message id receives from one
row list. -/
def contribRows (w : ℚ) : Nat → List SearchRow → String → ℚ
  | _, [], _ => 0
  | rank, row :: rest, m =>
    (if row.message_id = m then rrf_contrib w rank else 0)
      + contribRows w (rank + 1) rest m

/-- Rank-indexed sum of the contributions one message id receives from the
semantic id list. -/
def contribIds (w : ℚ) : Nat → List String → String → ℚ
  | _, [], _ => 0
  | rank, mid :: rest, m =>
    (if mid = m then rrf_contrib w rank else 0) + contribIds w (rank + 1) rest m

/-- Specification score of a message: the three weighted RRF sums the spec
prescribes. -/
def fused_score (bm25 recency : List SearchRow) (semantic : List String)
    (m : String) : ℚ :=
  contribRows 1 0 bm25 m + contribRows (3/10) 0 recency m
    + contribIds (1/2) 0 semantic m

/-- Cumulative score stored for a message id, zero when absent. -/
def scoreOf (scores : List (String × FusedEntry)) (k : String) : ℚ :=
  match alist_get scores k with
  | some e => e.score
  | none => 0

theorem alist_get_fused_upsert (fresh : FusedEntry)
    (m : List (String × FusedEntry)) (k : String) (c : ℚ) (k2 : String) :
    alist_get (fused_upsert fresh m k c) k2 =
      if k2 = k then
        match alist_get m k with
        | some e => some { e with score := e.score + c }
        | none => some fresh
      else alist_get m k2 := by
  induction m with
  | nil =>
    by_cases hk : k2 = k
    · subst hk
      simp [fused_upsert, alist_get]
    · simp only [fused_upsert, alist_get]
      rw [if_neg (fun h => hk h.symm), if_neg hk]
  | cons e rest ih =>
    obtain ⟨ka, va⟩ := e
    by_cases h2 : ka = k
    · by_cases hk : ka = k2
      · have hkc : k2 = k := hk.symm.trans h2
        simp [fused_upsert, alist_get, h2, hk, hkc]
      · have hkc : ¬ k2 = k := fun h => hk (h2.trans h.symm)
        simp only [fused_upsert, alist_get, h2, if_pos rfl, if_neg hkc]
        rw [if_neg (fun h => hkc h.symm), if_neg (fun h => hkc h.symm)]
    · by_cases hk : ka = k2
      · have hkc : ¬ k2 = k := fun h => h2 (hk.trans h)
        simp [fused_upsert, alist_get, h2, hk, hkc]
      · simp only [fused_upsert, alist_get, if_neg h2, if_neg hk]
        exact ih

theorem fused_upsert_keys (fresh : FusedEntry) (m : List (String × FusedEntry))
    (k : String) (c : ℚ) :
    (fused_upsert fresh m k c).map Prod.fst =
      if (alist_get m k).isSome then m.map Prod.fst
      else m.map Prod.fst ++ [k] := by
  induction m with
  | nil => simp [fused_upsert, alist_get]
  | cons e rest ih =>
    obtain ⟨ka, va⟩ := e
    by_cases h2 : ka = k
    · simp [fused_upsert, alist_get, h2]
    · simp only [fused_upsert, alist_get, if_neg h2, List.map_cons]
      rw [ih]
      by_cases hs : (alist_get rest k).isSome
      · rw [if_pos hs, if_pos hs]
      · rw [if_neg hs, if_neg hs]
        simp

/-- Invariant of the fusion score map: distinct keys and every entry
carrying its key as message id. -/
def FuseInv (m : List (String × FusedEntry)) : Prop :=
  (m.map Prod.fst).Nodup ∧ ∀ p ∈ m, (Prod.snd p).message_id = p.1

theorem fused_upsert_inv (fresh : FusedEntry) (m : List (String × FusedEntry))
    (k : String) (c : ℚ) (hid : fresh.message_id = k) (h : FuseInv m) :
    FuseInv (fused_upsert fresh m k c) := by
  obtain ⟨hnd, hids⟩ := h
  constructor
  · rw [fused_upsert_keys]
    by_cases hs : (alist_get m k).isSome
    · rw [if_pos hs]; exact hnd
    · rw [if_neg hs]
      have hnone : alist_get m k = none := by
        cases hv : alist_get m k
        · rfl
        · rw [hv] at hs; simp at hs
      have hnotin : k ∉ m.map Prod.fst := (alist_get_none_iff_keys m k).mp hnone
      simp [List.nodup_append, hnd, hnotin]
  · intro p hp
    induction m with
    | nil =>
      simp only [fused_upsert, List.mem_singleton] at hp
      subst hp
      exact hid
    | cons e rest ih =>
      obtain ⟨ka, va⟩ := e
      by_cases h2 : ka = k
      · rw [fused_upsert, if_pos h2] at hp
        rcases List.mem_cons.mp hp with hp | hp
        · subst hp
          exact hids (ka, va) (List.mem_cons_self _ _)
        · exact hids p (List.mem_cons_of_mem _ hp)
      · rw [fused_upsert, if_neg h2] at hp
        rcases List.mem_cons.mp hp with hp | hp
        · subst hp
          exact hids (ka, va) (List.mem_cons_self _ _)
        · have hnd2 : (rest.map Prod.fst).Nodup := by
            simp only [List.map_cons, List.nodup_cons] at hnd
            exact hnd.2
          exact ih hnd2 (fun q hq => hids q (List.mem_cons_of_mem _ hq)) hp

theorem scoreOf_fused_upsert (fresh : FusedEntry) (m : List (String × FusedEntry))
    (k : String) (c : ℚ) (hscore : fresh.score = c) (k2 : String) :
    scoreOf (fused_upsert fresh m k c) k2
      = scoreOf m k2 + (if k = k2 then c else 0) := by
  unfold scoreOf
  rw [alist_get_fused_upsert]
  by_cases hk : k2 = k
  · rw [if_pos hk, if_pos hk.symm, hk]
    cases alist_get m k with
    | none => simp [hscore]
    | some e => simp
  · rw [if_neg hk, if_neg (fun h => hk h.symm)]
    simp

theorem scoreOf_accum_rows (w : ℚ) :
    ∀ (rows : List SearchRow) (rank : Nat) (scores : List (String × FusedEntry))
      (k : String),
    scoreOf (accum_rows w rank rows scores) k
      = scoreOf scores k + contribRows w rank rows k := by
  intro rows
  induction rows with
  | nil => intro rank scores k; simp [accum_rows, contribRows]
  | cons row rest ih =>
    intro rank scores k
    rw [accum_rows, contribRows, ih]
    rw [scoreOf_fused_upsert _ _ _ _ rfl]
    by_cases hk : row.message_id = k
    · rw [if_pos hk]
      ring
    · rw [if_neg hk]
      ring

theorem scoreOf_accum_sem (w : ℚ) (msgs : List SearchRow) :
    ∀ (ids : List String) (rank : Nat) (scores : List (String × FusedEntry))
      (k : String),
    (∀ mid ∈ ids, (find_message msgs mid).isSome) →
    scoreOf (accum_sem w msgs rank ids scores) k
      = scoreOf scores k + contribIds w rank ids k := by
  intro ids
  induction ids with
  | nil => intro rank scores k _; simp [accum_sem, contribIds]
  | cons mid rest ih =>
    intro rank scores k hfind
    rw [accum_sem, contribIds]
    rw [ih _ _ _ (fun x hx => hfind x (List.mem_cons_of_mem _ hx))]
    cases hm : find_message msgs mid with
    | none =>
      have := hfind mid (List.mem_cons_self _ _)
      rw [hm] at this
      simp at this
    | some msgrow =>
      rw [scoreOf_fused_upsert _ _ _ _ rfl]
      by_cases hk : mid = k
      · rw [if_pos hk]
        ring
      · rw [if_neg hk]
        ring

theorem accum_rows_inv (w : ℚ) :
    ∀ (rows : List SearchRow) (rank : Nat) (scores : List (String × FusedEntry)),
    FuseInv scores → FuseInv (accum_rows w rank rows scores) := by
  intro rows
  induction rows with
  | nil => intro rank scores h; exact h
  | cons row rest ih =>
    intro rank scores h
    rw [accum_rows]
    exact ih _ _ (fused_upsert_inv _ _ _ _ rfl h)

theorem accum_sem_inv (w : ℚ) (msgs : List SearchRow) :
    ∀ (ids : List String) (rank : Nat) (scores : List (String × FusedEntry)),
    FuseInv scores → FuseInv (accum_sem w msgs rank ids scores) := by
  intro ids
  induction ids with
  | nil => intro rank scores h; exact h
  | cons mid rest ih =>
    intro rank scores h
    rw [accum_sem]
    refine ih _ _ (fused_upsert_inv _ _ _ _ ?_ h)
    cases find_message msgs mid <;> rfl

/-- C4: in the fusion stage of ranked retrieval, every returned hit's score
is the sum, over the three candidate lists, of `weight / (60 + rank + 1)`
at its 0-based ranks (weights 1 for lexical, 3/10 for recency, 1/2 for
semantic); the returned hits are sorted by score descending (scores
monotonically non-increasing) and truncated to the requested limit.  The
hypothesis states that every semantic candidate's message row exists in the
store, which `or_insert_with` fetches. -/
theorem c4_rrf_fusion (bm25 recency : List SearchRow) (semantic : List String)
    (msgs : List SearchRow) (limit : Nat)
    (hsem : ∀ mid ∈ semantic, (find_message msgs mid).isSome) :
    (∀ h ∈ search_fuse bm25 recency semantic msgs limit,
        h.score = fused_score bm25 recency semantic h.message_id)
    ∧ List.Sorted (fun a b : ℚ => b ≤ a)
        ((search_fuse bm25 recency semantic msgs limit).map RankedHit.score)
    ∧ (search_fuse bm25 recency semantic msgs limit).length ≤ limit := by
  have hinv : FuseInv (accum_sem (1/2) msgs 0 semantic
      (accum_rows (3/10) 0 recency (accum_rows 1 0 bm25 []))) := by
    refine accum_sem_inv _ _ _ _ _ (accum_rows_inv _ _ _ _ (accum_rows_inv _ _ _ _ ?_))
    exact ⟨by simp, by intro p hp; simp at hp⟩
  refine ⟨?_, ?_, ?_⟩
  · intro h hmem
    have hmem2 : h ∈ List.insertionSort hitGe
        ((((accum_sem (1/2) msgs 0 semantic
          (accum_rows (3/10) 0 recency (accum_rows 1 0 bm25 []))).map
            Prod.snd).filter (fun e => decide (0 < e.score))).map
          (fun e => RankedHit.mk e.message_id e.session_id e.content e.score)) :=
      List.mem_of_mem_take hmem
    have hmem3 := (List.perm_insertionSort hitGe _).mem_iff.mp hmem2
    obtain ⟨e, hef, heq⟩ := List.mem_map.mp hmem3
    have hev : e ∈ (accum_sem (1/2) msgs 0 semantic
        (accum_rows (3/10) 0 recency (accum_rows 1 0 bm25 []))).map Prod.snd :=
      List.mem_of_mem_filter hef
    obtain ⟨p, hp, hpe⟩ := List.mem_map.mp hev
    have hpid : e.message_id = p.1 := by rw [← hpe]; exact hinv.2 p hp
    have hpair : (p.1, e) ∈ accum_sem (1/2) msgs 0 semantic
        (accum_rows (3/10) 0 recency (accum_rows 1 0 bm25 [])) := by
      obtain ⟨k, v⟩ := p
      simp only at hpe
      rw [hpe] at hp
      exact hp
    have hget := alist_get_of_mem _ hinv.1 p.1 e hpair
    have hscore : scoreOf (accum_sem (1/2) msgs 0 semantic
        (accum_rows (3/10) 0 recency (accum_rows 1 0 bm25 []))) p.1 = e.score := by
      unfold scoreOf
      rw [hget]
    rw [scoreOf_accum_sem _ _ _ _ _ _ hsem, scoreOf_accum_rows,
      scoreOf_accum_rows] at hscore
    have hzero : scoreOf ([] : List (String × FusedEntry)) p.1 = 0 := rfl
    rw [hzero, zero_add] at hscore
    have hh : h.score = e.score ∧ h.message_id = e.message_id := by
      rw [← heq]
      exact ⟨rfl, rfl⟩
    rw [hh.1, hh.2, hpid, ← hscore]
    rfl
  · have hsorted : List.Pairwise hitGe ((List.insertionSort hitGe
        ((((accum_sem (1/2) msgs 0 semantic
          (accum_rows (3/10) 0 recency (accum_rows 1 0 bm25 []))).map
            Prod.snd).filter (fun e => decide (0 < e.score))).map
          (fun e => RankedHit.mk e.message_id e.session_id e.content
            e.score))).take limit) :=
      List.Pairwise.sublist (List.take_sublist limit _)
        (List.sorted_insertionSort hitGe _)
    exact List.pairwise_map.mpr (hsorted.imp (fun h => h))
  · exact List.length_take_le limit _

/-- Witness for C4 at a concrete one-row store and candidate lists. -/
theorem c4_rrf_fusion_witness :
    (∀ h ∈ search_fuse [⟨"m1", "s1", "rust"⟩] [⟨"m1", "s1", "rust"⟩] ["m1"]
        [⟨"m1", "s1", "rust"⟩] 10,
      h.score = fused_score [⟨"m1", "s1", "rust"⟩] [⟨"m1", "s1", "rust"⟩]
        ["m1"] h.message_id)
    ∧ List.Sorted (fun a b : ℚ => b ≤ a)
        ((search_fuse [⟨"m1", "s1", "rust"⟩] [⟨"m1", "s1", "rust"⟩] ["m1"]
          [⟨"m1", "s1", "rust"⟩] 10).map RankedHit.score)
    ∧ (search_fuse [⟨"m1", "s1", "rust"⟩] [⟨"m1", "s1", "rust"⟩] ["m1"]
        [⟨"m1", "s1", "rust"⟩] 10).length ≤ 10 :=
  c4_rrf_fusion [⟨"m1", "s1", "rust"⟩] [⟨"m1", "s1", "rust"⟩] ["m1"]
    [⟨"m1", "s1", "rust"⟩] 10 (by decide)
